import Mathlib

/-!
# Verification of the JSON structure viewer's core (`src/streamlit_app.py`)

Shallow embedding of the algorithmic core of the repository: the value
preview helpers (`_truncate`, `_value_preview`) and the graph builder
(`build_network` with its inner `add_node` and `walk` closures).

Python JSON values are modelled as a closed inductive type `JsonValue`
(numbers are modelled as integers; the claims under study do not depend
on float rendering).  Python strings are `String` (a sequence of
characters, matching Python's character-indexed slicing).  The mutable
closure state of `build_network` (`nodes`, `edges`, `truncated`,
`path_to_id`, `next_id`) is threaded explicitly through a `BuildState`
record; `declined` is a ghost counter recording how many times
`add_node` declined a node because the `max_nodes` cap was reached
(the branch at lines 58-60 of the source, which sets `truncated`).
-/

inductive JsonValue where
  | null
  | bool (b : Bool)
  | num (n : Int)
  | str (s : String)
  | arr (xs : List JsonValue)
  | obj (kvs : List (String × JsonValue))

/-- Source `_truncate(s, max_len=80)`: `(s[: max_len - 1] + "…") if len(s) > max_len else s`.
Python slicing is by characters, hence `List.take` on the character data. -/
def _truncate (s : String) (max_len : Nat := 80) : String :=
  if s.length > max_len then String.mk (s.data.take (max_len - 1)) ++ "…" else s

/-- Python `s.replace("\n", " ")` for a single-character pattern: a character map
over the string's characters. -/
def replaceNewlines (s : String) : String :=
  String.mk (s.data.map (fun c => if c = '\n' then ' ' else c))

/-- The `json.dumps` rendering restricted to the primitives `_value_preview` passes it
(int, bool, None): their literal JSON tokens. -/
def json_dumps_prim : JsonValue → String
  | .null => "null"
  | .bool b => if b then "true" else "false"
  | .num n => toString n
  | _ => ""  -- not reached: `_value_preview` only passes primitives

/-- Source `_value_preview(v)` (lines 23-32). -/
def _value_preview : JsonValue → String
  | .null => json_dumps_prim .null
  | .bool b => json_dumps_prim (.bool b)
  | .num n => json_dumps_prim (.num n)
  | .str s => _truncate (replaceNewlines s)
  | .arr xs => "[" ++ toString xs.length ++ "]"
  | .obj _ => "{…}"

/-- Python `type(obj).__name__` for the leaf values of the model. -/
def type_name : JsonValue → String
  | .null => "NoneType"
  | .bool _ => "bool"
  | .num _ => "int"
  | .str _ => "str"
  | .arr _ => "list"
  | .obj _ => "dict"

/-- A vis-network node record `{"id": nid, "label": label, "group": group}`. -/
structure Node where
  id : Nat
  label : String
  group : String
deriving DecidableEq

/-- A vis-network edge record `{"from": parent_nid, "to": nid}`
(`from` and `to` are Lean keywords, hence the field names `from_`, `to_`). -/
structure Edge where
  from_ : Nat
  to_ : Nat
deriving DecidableEq

/-- The mutable state captured by `build_network`'s closures, plus the
ghost counter `declined`. -/
structure BuildState where
  nodes : List Node
  edges : List Edge
  truncated : Bool
  path_to_id : List (String × Nat)
  next_id : Nat
  declined : Nat
deriving DecidableEq

/-- Membership test `path in path_to_id` and access `path_to_id[path]` on the insertion-ordered
association list modelling the Python dict. -/
def lookupPath (p : String) : List (String × Nat) → Option Nat
  | [] => none
  | (q, i) :: rest => if q = p then some i else lookupPath p rest

/-- Source `add_node(path, label, group)` (lines 54-67).  Returns the id (or
`none` when declined) together with the updated state.  The `declined`
ghost counter is incremented exactly in the source's `truncated = True;
return None` branch. -/
def add_node (max_nodes : Nat) (path label group : String) (s : BuildState) :
    Option Nat × BuildState :=
  match lookupPath path s.path_to_id with
  | some nid => (some nid, s)
  | none =>
    if s.nodes.length ≥ max_nodes then
      (none, { s with truncated := true, declined := s.declined + 1 })
    else
      let nid := s.next_id
      (some nid,
        { s with
          next_id := nid + 1
          path_to_id := s.path_to_id ++ [(path, nid)]
          nodes := s.nodes ++ [⟨nid, label, group⟩] })

/-- The last element of a list of strings (`[-1]` indexing; `""` on the
empty list, which `split_dot` never returns). -/
def last_of : List String → String
  | [] => ""
  | [x] => x
  | _ :: y :: rest => last_of (y :: rest)

/-- Python's `s.split(".")`, character by character: splitting on the
single character `'.'`; `"".split(".") == [""]`. -/
def split_dot : List Char → List String
  | [] => [""]
  | c :: rest =>
    if c = '.' then "" :: split_dot rest
    else
      match split_dot rest with
      | [] => [String.mk [c]]  -- not reached: `split_dot` never returns `[]`
      | seg :: segs => String.mk (c :: seg.data) :: segs

/-- Python `path.split(".")[-1]`. -/
def last_segment (path : String) : String :=
  last_of (split_dot path.data)

/-- Child path for an object field `k` (line 81):
`f"{path + '.' if path else ''}{k}"`. -/
def field_path (path k : String) : String :=
  if path = "" then k else path ++ "." ++ k

/-- Child path for an array index `i` (line 91):
`f"{path}[{i}]" if path else f"[{i}]"`. -/
def index_path (path : String) (i : Nat) : String :=
  if path = "" then "[" ++ toString i ++ "]" else path ++ "[" ++ toString i ++ "]"

/-- The `add_node` call followed by the conditional edge append
`if parent_nid is not None: edges.append(...)`, a block repeated verbatim
for the dict (lines 75-79), list (85-89) and leaf (95-99) branches of
`walk`; factored out here once. -/
def enter_node (max_nodes : Nat) (path label group : String) (parent_nid : Option Nat)
    (s : BuildState) : Option Nat × BuildState :=
  match add_node max_nodes path label group s with
  | (none, s1) => (none, s1)
  | (some nid, s1) =>
    match parent_nid with
    | some p => (some nid, { s1 with edges := s1.edges ++ [⟨p, nid⟩] })
    | none => (some nid, s1)

/-- The leaf (`else`) branch of `walk` (lines 93-99). -/
def leaf_case (max_nodes : Nat) (show_values : Bool) (leaf : JsonValue) (path : String)
    (parent_nid : Option Nat) (s : BuildState) : BuildState :=
  (enter_node max_nodes path
    (if show_values then _value_preview leaf else type_name leaf) "value" parent_nid s).2

mutual

/-- Source `walk(obj, path, parent_nid)` (lines 69-99).  The source dispatches by
`isinstance`; the closed `JsonValue` model enumerates the four leaf shapes
explicitly. -/
def walk (max_nodes : Nat) (show_values : Bool) (v : JsonValue) (path : String)
    (parent_nid : Option Nat) (s : BuildState) : BuildState :=
  if s.truncated then s
  else
      match v with
      | .obj kvs =>
        match enter_node max_nodes (if path = "" then "root" else path)
            ((if path = "" then "root" else last_segment path) ++ " {}") "object"
            parent_nid s with
        | (none, s1) => s1
        | (some nid, s1) => walkFields max_nodes show_values kvs path nid s1
      | .arr xs =>
        match enter_node max_nodes (if path = "" then "root" else path)
            ((if path = "" then "root" else last_segment path) ++
              " [" ++ toString xs.length ++ "]") "array" parent_nid s with
        | (none, s1) => s1
        | (some nid, s1) => walkItems max_nodes show_values xs path 0 nid s1
      | .null => leaf_case max_nodes show_values .null path parent_nid s
      | .bool b => leaf_case max_nodes show_values (.bool b) path parent_nid s
      | .num n => leaf_case max_nodes show_values (.num n) path parent_nid s
      | .str t => leaf_case max_nodes show_values (.str t) path parent_nid s

/-- The `for k, v in obj.items()` loop (lines 80-82). -/
def walkFields (max_nodes : Nat) (show_values : Bool) (kvs : List (String × JsonValue))
    (path : String) (nid : Nat) (s : BuildState) : BuildState :=
  match kvs with
  | [] => s
  | (k, v) :: rest =>
    walkFields max_nodes show_values rest path nid
      (walk max_nodes show_values v (field_path path k) (some nid) s)

/-- The `for i, v in enumerate(obj)` loop (lines 90-92). -/
def walkItems (max_nodes : Nat) (show_values : Bool) (xs : List JsonValue)
    (path : String) (i : Nat) (nid : Nat) (s : BuildState) : BuildState :=
  match xs with
  | [] => s
  | v :: rest =>
    walkItems max_nodes show_values rest path (i + 1) nid
      (walk max_nodes show_values v (index_path path i) (some nid) s)

end

/-- The final closure state of `build_network(data, show_values, max_nodes)`
(lines 35-102): fresh state, then `walk(data, path="", parent_nid=None)`. -/
def build_state (data : JsonValue) (show_values : Bool) (max_nodes : Nat) : BuildState :=
  walk max_nodes show_values data "" none ⟨[], [], false, [], 1, 0⟩

/-- Source `build_network`, returning `nodes, edges, truncated`. -/
def build_network (data : JsonValue) (show_values : Bool := true)
    (max_nodes : Nat := 1200) : List Node × List Edge × Bool :=
  let s := build_state data show_values max_nodes
  (s.nodes, s.edges, s.truncated)

/-- The nested chain `{"a": {"a": … {"a": 1} … }}` of the given depth,
used to exercise deep inputs. -/
def chain : Nat → JsonValue
  | 0 => .num 1
  | n + 1 => .obj [("a", chain n)]

/-! ## Depth-first preorder of stored paths

`walk` visits locations depth-first, children in original key/index
order.  `preorder_paths` lists, in that visit order, the path key each
visit would store into `path_to_id` (containers store `path or "root"`,
lines 75/85; leaves store the raw `path`, line 95). -/

mutual

def preorder_paths (v : JsonValue) (path : String) : List String :=
  match v with
  | .obj kvs => (if path = "" then "root" else path) :: preorder_fields kvs path
  | .arr xs => (if path = "" then "root" else path) :: preorder_items xs path 0
  | .null => [path]
  | .bool _ => [path]
  | .num _ => [path]
  | .str _ => [path]

def preorder_fields (kvs : List (String × JsonValue)) (path : String) : List String :=
  match kvs with
  | [] => []
  | (k, v) :: rest => preorder_paths v (field_path path k) ++ preorder_fields rest path

def preorder_items (xs : List JsonValue) (path : String) (i : Nat) : List String :=
  match xs with
  | [] => []
  | v :: rest => preorder_paths v (index_path path i) ++ preorder_items rest path (i + 1)

end

/-! Total number of object fields plus array elements in a value, summed
recursively over the whole tree (the spec's count of non-root reachable
locations). -/

mutual

def count_fields_elems : JsonValue → Nat
  | .obj kvs => kvs.length + cfe_fields kvs
  | .arr xs => xs.length + cfe_items xs
  | .null => 0
  | .bool _ => 0
  | .num _ => 0
  | .str _ => 0

def cfe_fields : List (String × JsonValue) → Nat
  | [] => 0
  | (_, v) :: rest => count_fields_elems v + cfe_fields rest

def cfe_items : List JsonValue → Nat
  | [] => 0
  | v :: rest => count_fields_elems v + cfe_items rest

end

/-- Modelled from the spec: `classify(value) -> NodeKind` (§3 "NodeKind",
§4.2): the six kinds, dict→object, list→array, bool→boolean (before
number), numeric→number, None→null, else→string.  The repository's
`src/` contains no index builder; §4.3 is the authority. -/
def classify : JsonValue → String
  | .null => "null"
  | .bool _ => "boolean"
  | .arr _ => "array"
  | .obj _ => "object"
  | .num _ => "number"
  | .str _ => "string"

/-- Modelled from the spec: an `IndexEntry` (§3): path, kind and preview
(value serialized via the preview function). -/
structure IndexEntry where
  path : String
  kind : String
  preview : String

mutual

/-- Modelled from the spec: `buildIndex`'s full unbounded depth-first
traversal (§4.3) — no node cap, no depth cap, one entry per visited
location; the root is stored under the sentinel key `"root"` while
recursion joins children from the empty path; object fields in insertion
order, array elements in index order. -/
def buildIndexFrom (v : JsonValue) (path : String) : List (String × IndexEntry) :=
  match v with
  | .obj kvs =>
    ((if path = "" then "root" else path),
      ⟨path, classify (.obj kvs), _value_preview (.obj kvs)⟩) :: indexFields kvs path
  | .arr xs =>
    ((if path = "" then "root" else path),
      ⟨path, classify (.arr xs), _value_preview (.arr xs)⟩) :: indexItems xs path 0
  | .null => [((if path = "" then "root" else path), ⟨path, classify .null, _value_preview .null⟩)]
  | .bool b =>
    [((if path = "" then "root" else path),
      ⟨path, classify (.bool b), _value_preview (.bool b)⟩)]
  | .num n =>
    [((if path = "" then "root" else path),
      ⟨path, classify (.num n), _value_preview (.num n)⟩)]
  | .str t =>
    [((if path = "" then "root" else path),
      ⟨path, classify (.str t), _value_preview (.str t)⟩)]

/-- Modelled from the spec: recursion into each object field in insertion
order (§4.3). -/
def indexFields (kvs : List (String × JsonValue)) (path : String) :
    List (String × IndexEntry) :=
  match kvs with
  | [] => []
  | (k, v) :: rest => buildIndexFrom v (field_path path k) ++ indexFields rest path

/-- Modelled from the spec: recursion into each array element in index
order (§4.3). -/
def indexItems (xs : List JsonValue) (path : String) (i : Nat) :
    List (String × IndexEntry) :=
  match xs with
  | [] => []
  | v :: rest => buildIndexFrom v (index_path path i) ++ indexItems rest path (i + 1)

end

/-- Modelled from the spec: `buildIndex(value)` (§4.3), seeded at the
empty root path. -/
def buildIndex (v : JsonValue) : List (String × IndexEntry) :=
  buildIndexFrom v ""

/-! ## The path model

A location in a `JsonValue` tree is a list of steps from the root; the
path-construction rules of `walk` (object field appends `.key`, line 81;
array index appends `[i]`, line 91; the root is the empty string) are
`field_path`/`index_path`, folded over the steps. -/

inductive Step where
  | field (k : String)
  | index (i : Nat)
deriving DecidableEq

/-- One step of path construction, exactly the source's join rules. -/
def joinPath (parent : String) : Step → String
  | .field k => field_path parent k
  | .index i => index_path parent i

/-- The path string of a location. -/
def pathOfSteps (l : List Step) : String :=
  l.foldl joinPath ""

mutual

/-- All locations of a value: the root `[]` plus, for containers, each
child's locations prefixed with the corresponding step. -/
def locs (v : JsonValue) : List (List Step) :=
  match v with
  | .obj kvs => [] :: locsFields kvs
  | .arr xs => [] :: locsItems xs 0
  | .null => [[]]
  | .bool _ => [[]]
  | .num _ => [[]]
  | .str _ => [[]]

def locsFields (kvs : List (String × JsonValue)) : List (List Step) :=
  match kvs with
  | [] => []
  | (k, v) :: rest => (locs v).map (fun l => .field k :: l) ++ locsFields rest

def locsItems (xs : List JsonValue) (i : Nat) : List (List Step) :=
  match xs with
  | [] => []
  | v :: rest => (locs v).map (fun l => .index i :: l) ++ locsItems rest (i + 1)

end

/-- A key is safe for the unescaped path syntax when it is nonempty and
contains neither `'.'` nor `'['`. -/
def okKeyB (k : String) : Bool :=
  !k.data.isEmpty && k.data.all (fun c => c != '.' && c != '[')

mutual

/-- Every object key anywhere in the value is safe. -/
def okKeysB (v : JsonValue) : Bool :=
  match v with
  | .obj kvs => okKeysFieldsB kvs
  | .arr xs => okKeysItemsB xs
  | .null => true
  | .bool _ => true
  | .num _ => true
  | .str _ => true

def okKeysFieldsB (kvs : List (String × JsonValue)) : Bool :=
  match kvs with
  | [] => true
  | (k, v) :: rest => okKeyB k && okKeysB v && okKeysFieldsB rest

def okKeysItemsB (xs : List JsonValue) : Bool :=
  match xs with
  | [] => true
  | v :: rest => okKeysB v && okKeysItemsB rest

end

/-- A step is well-formed for parsing when a field step carries a safe
key. -/
def okStepP : Step → Prop
  | .field k => k.data ≠ [] ∧ ∀ c ∈ k.data, c ≠ '.' ∧ c ≠ '['
  | .index _ => True

/-- The characters a step contributes to the path string (`first` marks
the step at the root, whose field form omits the joining dot). -/
def stepChars (first : Bool) : Step → List Char
  | .field k => (if first then [] else ['.']) ++ k.data
  | .index i => '[' :: ((toString i).data ++ [']'])

/-- The characters of a whole location's path. -/
def pathChars : Bool → List Step → List Char
  | _, [] => []
  | first, st :: rest => stepChars first st ++ pathChars false rest

/-- The decimal digits of a natural number, most significant first
(mirrors `Nat.toDigitsCore` at base 10 without the accumulator). -/
def digitsOf (n : Nat) : List Char :=
  if n / 10 = 0 then [Nat.digitChar (n % 10)]
  else digitsOf (n / 10) ++ [Nat.digitChar (n % 10)]
termination_by n
decreasing_by
  simp_wf
  omega

/-! ## Unfolding lemmas for the mutual recursion -/

theorem walk_truncated {m : Nat} {sv : Bool} {v : JsonValue} {path : String}
    {par : Option Nat} {s : BuildState} (ht : s.truncated = true) :
    walk m sv v path par s = s := by
  rw [walk.eq_def, if_pos ht]

theorem walk_obj (m : Nat) (sv : Bool) (kvs : List (String × JsonValue)) (path : String)
    (par : Option Nat) (s : BuildState) :
    walk m sv (.obj kvs) path par s =
      if s.truncated then s
      else
        match enter_node m (if path = "" then "root" else path)
            ((if path = "" then "root" else last_segment path) ++ " {}") "object" par s with
        | (none, s1) => s1
        | (some nid, s1) => walkFields m sv kvs path nid s1 := by
  rw [walk.eq_def]

theorem walk_arr (m : Nat) (sv : Bool) (xs : List JsonValue) (path : String)
    (par : Option Nat) (s : BuildState) :
    walk m sv (.arr xs) path par s =
      if s.truncated then s
      else
        match enter_node m (if path = "" then "root" else path)
            ((if path = "" then "root" else last_segment path) ++
              " [" ++ toString xs.length ++ "]") "array" par s with
        | (none, s1) => s1
        | (some nid, s1) => walkItems m sv xs path 0 nid s1 := by
  rw [walk.eq_def]

theorem walk_null (m : Nat) (sv : Bool) (path : String) (par : Option Nat) (s : BuildState) :
    walk m sv .null path par s =
      if s.truncated then s else leaf_case m sv .null path par s := by
  rw [walk.eq_def]

theorem walk_bool (m : Nat) (sv : Bool) (b : Bool) (path : String) (par : Option Nat)
    (s : BuildState) :
    walk m sv (.bool b) path par s =
      if s.truncated then s else leaf_case m sv (.bool b) path par s := by
  rw [walk.eq_def]

theorem walk_num (m : Nat) (sv : Bool) (n : Int) (path : String) (par : Option Nat)
    (s : BuildState) :
    walk m sv (.num n) path par s =
      if s.truncated then s else leaf_case m sv (.num n) path par s := by
  rw [walk.eq_def]

theorem walk_str (m : Nat) (sv : Bool) (t : String) (path : String) (par : Option Nat)
    (s : BuildState) :
    walk m sv (.str t) path par s =
      if s.truncated then s else leaf_case m sv (.str t) path par s := by
  rw [walk.eq_def]

theorem walkFields_nil (m : Nat) (sv : Bool) (path : String) (nid : Nat) (s : BuildState) :
    walkFields m sv [] path nid s = s := by
  rw [walkFields.eq_def]

theorem walkFields_cons (m : Nat) (sv : Bool) (k : String) (v : JsonValue)
    (rest : List (String × JsonValue)) (path : String) (nid : Nat) (s : BuildState) :
    walkFields m sv ((k, v) :: rest) path nid s =
      walkFields m sv rest path nid
        (walk m sv v (field_path path k) (some nid) s) := by
  rw [walkFields.eq_def]

theorem walkItems_nil (m : Nat) (sv : Bool) (path : String) (i : Nat) (nid : Nat)
    (s : BuildState) : walkItems m sv [] path i nid s = s := by
  rw [walkItems.eq_def]

theorem walkItems_cons (m : Nat) (sv : Bool) (v : JsonValue) (rest : List JsonValue)
    (path : String) (i : Nat) (nid : Nat) (s : BuildState) :
    walkItems m sv (v :: rest) path i nid s =
      walkItems m sv rest path (i + 1) nid
        (walk m sv v (index_path path i) (some nid) s) := by
  rw [walkItems.eq_def]

/-! ## Generic preservation: every state change in `walk` goes through
`enter_node`, so any predicate preserved by `enter_node` is preserved by
the whole traversal. -/

section Preservation

variable {m : Nat} {sv : Bool} {P : BuildState → Prop}

mutual

theorem walk_pres
    (hE : ∀ path label group par s, P s → P (enter_node m path label group par s).2) :
    ∀ (v : JsonValue) (path : String) (par : Option Nat) (s : BuildState),
    P s → P (walk m sv v path par s)
  | v, path, par, s, hs => by
    by_cases ht : s.truncated = true
    · rw [walk_truncated ht]; exact hs
    · cases v with
      | obj kvs =>
        rw [walk_obj, if_neg ht]
        have hs1 := hE (if path = "" then "root" else path)
          ((if path = "" then "root" else last_segment path) ++ " {}") "object" par s hs
        split
        next s1 h => rw [h] at hs1; exact hs1
        next nid s1 h => rw [h] at hs1; exact walkFields_pres hE kvs path nid s1 hs1
      | arr xs =>
        rw [walk_arr, if_neg ht]
        have hs1 := hE (if path = "" then "root" else path)
          ((if path = "" then "root" else last_segment path) ++
            " [" ++ toString xs.length ++ "]") "array" par s hs
        split
        next s1 h => rw [h] at hs1; exact hs1
        next nid s1 h => rw [h] at hs1; exact walkItems_pres hE xs path 0 nid s1 hs1
      | null => rw [walk_null, if_neg ht]; exact hE _ _ _ _ _ hs
      | bool b => rw [walk_bool, if_neg ht]; exact hE _ _ _ _ _ hs
      | num n => rw [walk_num, if_neg ht]; exact hE _ _ _ _ _ hs
      | str t => rw [walk_str, if_neg ht]; exact hE _ _ _ _ _ hs

theorem walkFields_pres
    (hE : ∀ path label group par s, P s → P (enter_node m path label group par s).2) :
    ∀ (kvs : List (String × JsonValue)) (path : String) (nid : Nat)
    (s : BuildState), P s → P (walkFields m sv kvs path nid s)
  | [], path, nid, s, hs => by rw [walkFields_nil]; exact hs
  | (k, v) :: rest, path, nid, s, hs => by
    rw [walkFields_cons]
    exact walkFields_pres hE rest path nid _ (walk_pres hE v (field_path path k) (some nid) s hs)

theorem walkItems_pres
    (hE : ∀ path label group par s, P s → P (enter_node m path label group par s).2) :
    ∀ (xs : List JsonValue) (path : String) (i : Nat) (nid : Nat)
    (s : BuildState), P s → P (walkItems m sv xs path i nid s)
  | [], path, i, nid, s, hs => by rw [walkItems_nil]; exact hs
  | v :: rest, path, i, nid, s, hs => by
    rw [walkItems_cons]
    exact walkItems_pres hE rest path (i + 1) nid _ (walk_pres hE v (index_path path i) (some nid) s hs)

end

end Preservation

/-! ## The structural invariant of the builder state -/

/-- The ids of the emitted nodes, in emission order. -/
def ids (s : BuildState) : List Nat := s.nodes.map (·.id)

/-- The stored paths (the keys of `path_to_id`), in emission order. -/
def storedKeys (s : BuildState) : List String := s.path_to_id.map Prod.fst

theorem lookupPath_eq_none {p : String} {l : List (String × Nat)} :
    lookupPath p l = none ↔ p ∉ l.map Prod.fst := by
  induction l with
  | nil => simp [lookupPath]
  | cons qi rest ih =>
    rcases qi with ⟨q, i⟩
    by_cases h : q = p
    · subst h; simp [lookupPath]
    · simp [lookupPath, h, ih, Ne.symm h]

theorem lookupPath_some_mem {p : String} {l : List (String × Nat)} {i : Nat}
    (h : lookupPath p l = some i) : i ∈ l.map Prod.snd := by
  induction l with
  | nil => simp [lookupPath] at h
  | cons qj rest ih =>
    rcases qj with ⟨q, j⟩
    by_cases hq : q = p
    · simp [lookupPath, hq] at h
      simp [h]
    · simp [lookupPath, hq] at h
      simp [ih h]

/-- The core structural invariant maintained by `add_node`: node ids are
the consecutive integers `1, 2, …` in emission order, `next_id` is the
next free id, `path_to_id` pairs each stored path with the id of the node
emitted for it (one entry per node, distinct keys), the node count never
exceeds the cap, and `truncated` is set exactly when at least one node
has been declined. -/
structure StateInv (m : Nat) (s : BuildState) : Prop where
  ids_eq : ids s = List.range' 1 s.nodes.length
  next_eq : s.next_id = s.nodes.length + 1
  ptid_snd : s.path_to_id.map Prod.snd = ids s
  keys_nodup : (storedKeys s).Nodup
  cap : s.nodes.length ≤ m
  trunc_iff : s.truncated = true ↔ 0 < s.declined

theorem StateInv.init (m : Nat) : StateInv m ⟨[], [], false, [], 1, 0⟩ := by
  constructor <;> simp [ids, storedKeys]

theorem range'_one_concat (n : Nat) : List.range' 1 n ++ [n + 1] = List.range' 1 (n + 1) := by
  have h := List.range'_append_1 1 n 1
  have h1 : List.range' (1 + n) 1 = [1 + n] := by simp [List.range'_succ]
  rw [h1] at h
  rw [Nat.add_comm 1 n] at h
  rw [Nat.add_comm n 1, Nat.add_comm 1 n]
  exact h

theorem add_node_inv {m : Nat} {p l g : String} {s : BuildState} (h : StateInv m s) :
    StateInv m (add_node m p l g s).2 := by
  unfold add_node
  cases hl : lookupPath p s.path_to_id with
  | some nid => simpa using h
  | none =>
    by_cases hc : s.nodes.length ≥ m
    · simp only [hc, ge_iff_le, if_pos]
      exact ⟨h.ids_eq, h.next_eq, h.ptid_snd, h.keys_nodup, h.cap, by simp⟩
    · simp only [hc, ge_iff_le, if_neg, ite_false]
      have hfresh : p ∉ s.path_to_id.map Prod.fst := lookupPath_eq_none.mp hl
      have hids : s.nodes.map (fun x => x.id) = List.range' 1 s.nodes.length := h.ids_eq
      have hsnd : s.path_to_id.map Prod.snd = s.nodes.map (fun x => x.id) := h.ptid_snd
      refine ⟨?_, ?_, ?_, ?_, ?_, ?_⟩
      · simp only [ids, List.map_append, List.length_append]
        rw [hids, h.next_eq]
        simpa using range'_one_concat s.nodes.length
      · simp [h.next_eq]
      · simp only [ids, List.map_append]
        rw [hsnd]
        rfl
      · show ((s.path_to_id ++ [(p, s.next_id)]).map Prod.fst).Nodup
        simp only [List.map_append]
        refine List.Nodup.append h.keys_nodup (List.nodup_singleton p) ?_
        intro a ha hp
        simp only [List.map_cons, List.map_nil, List.mem_singleton] at hp
        subst hp
        exact hfresh ha
      · simp only [List.length_append, List.length_singleton]
        omega
      · exact h.trunc_iff

/-! ## Shape lemmas for `add_node` and `enter_node` -/

theorem add_node_edges_eq (m : Nat) (p l g : String) (s : BuildState) :
    (add_node m p l g s).2.edges = s.edges := by
  unfold add_node
  cases hl : lookupPath p s.path_to_id with
  | some nid => rfl
  | none =>
    by_cases hc : s.nodes.length ≥ m
    · simp [hc]
    · simp [hc]

theorem add_node_nodes_ext (m : Nat) (p l g : String) (s : BuildState) :
    ∃ t, (add_node m p l g s).2.nodes = s.nodes ++ t := by
  unfold add_node
  cases hl : lookupPath p s.path_to_id with
  | some nid => exact ⟨[], by simp⟩
  | none =>
    by_cases hc : s.nodes.length ≥ m
    · exact ⟨[], by simp [hc]⟩
    · exact ⟨[⟨s.next_id, l, g⟩], by simp [hc]⟩

theorem add_node_ptid_ext (m : Nat) (p l g : String) (s : BuildState) :
    ∃ t, (add_node m p l g s).2.path_to_id = s.path_to_id ++ t := by
  unfold add_node
  cases hl : lookupPath p s.path_to_id with
  | some nid => exact ⟨[], by simp⟩
  | none =>
    by_cases hc : s.nodes.length ≥ m
    · exact ⟨[], by simp [hc]⟩
    · exact ⟨[(p, s.next_id)], by simp [hc]⟩

theorem add_node_trunc_mono {m : Nat} {p l g : String} {s : BuildState}
    (ht : s.truncated = true) : (add_node m p l g s).2.truncated = true := by
  unfold add_node
  cases hl : lookupPath p s.path_to_id with
  | some nid => exact ht
  | none =>
    by_cases hc : s.nodes.length ≥ m
    · simp [hc]
    · simp [hc]; exact ht

theorem add_node_declined_mono (m : Nat) (p l g : String) (s : BuildState) :
    s.declined ≤ (add_node m p l g s).2.declined := by
  unfold add_node
  cases hl : lookupPath p s.path_to_id with
  | some nid => exact le_refl _
  | none =>
    by_cases hc : s.nodes.length ≥ m
    · simp [hc]
    · simp [hc]

theorem add_node_some_mem {m : Nat} {p l g : String} {s : BuildState} {nid : Nat}
    (h : StateInv m s) (hsome : (add_node m p l g s).1 = some nid) :
    nid ∈ ids (add_node m p l g s).2 := by
  revert hsome
  unfold add_node
  cases hl : lookupPath p s.path_to_id with
  | some j =>
    intro hsome
    simp at hsome
    subst hsome
    have hj : j ∈ s.path_to_id.map Prod.snd := lookupPath_some_mem hl
    rw [h.ptid_snd] at hj
    simpa [ids] using hj
  | none =>
    by_cases hc : s.nodes.length ≥ m
    · intro hsome
      simp [hc] at hsome
    · intro hsome
      simp [hc] at hsome
      subst hsome
      simp only [hc, ge_iff_le, if_neg, ite_false, ids]
      refine List.mem_map.mpr ⟨⟨s.next_id, l, g⟩, ?_, rfl⟩
      simp

theorem enter_node_edges_ext (m : Nat) (p l g : String) (par : Option Nat) (s : BuildState) :
    ∃ t, (enter_node m p l g par s).2.edges = s.edges ++ t := by
  unfold enter_node
  rcases ha : add_node m p l g s with ⟨onid, s1⟩
  have he : s1.edges = s.edges := by
    have := add_node_edges_eq m p l g s
    rw [ha] at this
    exact this
  cases onid with
  | none => exact ⟨[], by simp [he]⟩
  | some nid =>
    cases par with
    | none => exact ⟨[], by simp [he]⟩
    | some q => exact ⟨[⟨q, nid⟩], by simp [he]⟩

theorem enter_node_nodes_ext (m : Nat) (p l g : String) (par : Option Nat) (s : BuildState) :
    ∃ t, (enter_node m p l g par s).2.nodes = s.nodes ++ t := by
  unfold enter_node
  rcases ha : add_node m p l g s with ⟨onid, s1⟩
  have hn : ∃ t, s1.nodes = s.nodes ++ t := by
    have := add_node_nodes_ext m p l g s
    rwa [ha] at this
  cases onid with
  | none => exact hn
  | some nid =>
    cases par with
    | none => exact hn
    | some q => exact hn

theorem enter_node_ptid_ext (m : Nat) (p l g : String) (par : Option Nat) (s : BuildState) :
    ∃ t, (enter_node m p l g par s).2.path_to_id = s.path_to_id ++ t := by
  unfold enter_node
  rcases ha : add_node m p l g s with ⟨onid, s1⟩
  have hn : ∃ t, s1.path_to_id = s.path_to_id ++ t := by
    have := add_node_ptid_ext m p l g s
    rwa [ha] at this
  cases onid with
  | none => exact hn
  | some nid =>
    cases par with
    | none => exact hn
    | some q => exact hn

theorem enter_node_trunc_mono {m : Nat} {p l g : String} {par : Option Nat} {s : BuildState}
    (ht : s.truncated = true) : (enter_node m p l g par s).2.truncated = true := by
  unfold enter_node
  rcases ha : add_node m p l g s with ⟨onid, s1⟩
  have h1 : s1.truncated = true := by
    have := add_node_trunc_mono (m := m) (p := p) (l := l) (g := g) ht
    rwa [ha] at this
  cases onid with
  | none => exact h1
  | some nid =>
    cases par with
    | none => exact h1
    | some q => exact h1

theorem enter_node_declined_mono (m : Nat) (p l g : String) (par : Option Nat)
    (s : BuildState) : s.declined ≤ (enter_node m p l g par s).2.declined := by
  unfold enter_node
  rcases ha : add_node m p l g s with ⟨onid, s1⟩
  have h1 : s.declined ≤ s1.declined := by
    have := add_node_declined_mono m p l g s
    rwa [ha] at this
  cases onid with
  | none => exact h1
  | some nid =>
    cases par with
    | none => exact h1
    | some q => exact h1

theorem enter_node_inv {m : Nat} {p l g : String} {par : Option Nat} {s : BuildState}
    (h : StateInv m s) : StateInv m (enter_node m p l g par s).2 := by
  unfold enter_node
  rcases ha : add_node m p l g s with ⟨onid, s1⟩
  have h1 : StateInv m s1 := by
    have := add_node_inv (p := p) (l := l) (g := g) h
    rwa [ha] at this
  cases onid with
  | none => exact h1
  | some nid =>
    cases par with
    | none => exact h1
    | some q => exact ⟨h1.ids_eq, h1.next_eq, h1.ptid_snd, h1.keys_nodup, h1.cap, h1.trunc_iff⟩

theorem enter_node_some_mem {m : Nat} {p l g : String} {par : Option Nat} {s : BuildState}
    {nid : Nat} (h : StateInv m s) (hsome : (enter_node m p l g par s).1 = some nid) :
    nid ∈ ids (enter_node m p l g par s).2 := by
  revert hsome
  unfold enter_node
  rcases ha : add_node m p l g s with ⟨onid, s1⟩
  have hmem : ∀ j, onid = some j → j ∈ ids s1 := by
    intro j hj
    have := add_node_some_mem (l := l) (g := g) h (by rw [ha, hj])
    rwa [ha] at this
  cases onid with
  | none => intro hsome; simp at hsome
  | some j =>
    cases par with
    | none =>
      intro hsome
      simp at hsome
      subst hsome
      exact hmem _ rfl
    | some q =>
      intro hsome
      simp at hsome
      subst hsome
      exact hmem _ rfl

/-! ## `walk`-level consequences via the generic preservation theorem -/

theorem walk_inv {m : Nat} {sv : Bool} (v : JsonValue) (path : String) (par : Option Nat)
    {s : BuildState} (h : StateInv m s) : StateInv m (walk m sv v path par s) :=
  walk_pres (fun _ _ _ _ _ h' => enter_node_inv h') v path par s h

theorem walk_nodes_ext {m : Nat} {sv : Bool} (v : JsonValue) (path : String)
    (par : Option Nat) (s : BuildState) : ∃ t, (walk m sv v path par s).nodes = s.nodes ++ t := by
  refine walk_pres (P := fun s' => ∃ t, s'.nodes = s.nodes ++ t) ?_ v path par s ⟨[], by simp⟩
  rintro p l g pr s' ⟨t, ht⟩
  obtain ⟨u, hu⟩ := enter_node_nodes_ext m p l g pr s'
  exact ⟨t ++ u, by rw [hu, ht, List.append_assoc]⟩

theorem walk_edges_ext {m : Nat} {sv : Bool} (v : JsonValue) (path : String)
    (par : Option Nat) (s : BuildState) : ∃ t, (walk m sv v path par s).edges = s.edges ++ t := by
  refine walk_pres (P := fun s' => ∃ t, s'.edges = s.edges ++ t) ?_ v path par s ⟨[], by simp⟩
  rintro p l g pr s' ⟨t, ht⟩
  obtain ⟨u, hu⟩ := enter_node_edges_ext m p l g pr s'
  exact ⟨t ++ u, by rw [hu, ht, List.append_assoc]⟩

theorem walk_ptid_ext {m : Nat} {sv : Bool} (v : JsonValue) (path : String)
    (par : Option Nat) (s : BuildState) :
    ∃ t, (walk m sv v path par s).path_to_id = s.path_to_id ++ t := by
  refine walk_pres (P := fun s' => ∃ t, s'.path_to_id = s.path_to_id ++ t) ?_ v path par s
    ⟨[], by simp⟩
  rintro p l g pr s' ⟨t, ht⟩
  obtain ⟨u, hu⟩ := enter_node_ptid_ext m p l g pr s'
  exact ⟨t ++ u, by rw [hu, ht, List.append_assoc]⟩

theorem walk_trunc_mono {m : Nat} {sv : Bool} (v : JsonValue) (path : String)
    (par : Option Nat) {s : BuildState} (ht : s.truncated = true) :
    (walk m sv v path par s).truncated = true :=
  walk_pres (P := fun s' => s'.truncated = true)
    (fun _ _ _ _ _ h' => enter_node_trunc_mono h') v path par s ht

theorem walk_declined_mono {m : Nat} {sv : Bool} (v : JsonValue) (path : String)
    (par : Option Nat) (s : BuildState) : s.declined ≤ (walk m sv v path par s).declined := by
  refine walk_pres (P := fun s' => s.declined ≤ s'.declined) ?_ v path par s (le_refl _)
  intro p l g pr s' h'
  exact h'.trans (enter_node_declined_mono m p l g pr s')

theorem walk_mem_ids {m : Nat} {sv : Bool} (v : JsonValue) (path : String)
    (par : Option Nat) {s : BuildState} {x : Nat} (hx : x ∈ ids s) :
    x ∈ ids (walk m sv v path par s) := by
  refine walk_pres (P := fun s' => x ∈ ids s') ?_ v path par s hx
  intro p l g pr s' h'
  obtain ⟨u, hu⟩ := enter_node_nodes_ext m p l g pr s'
  simp only [ids, hu, List.map_append, List.mem_append]
  exact Or.inl h'

theorem build_state_inv (v : JsonValue) (sv : Bool) (m : Nat) :
    StateInv m (build_state v sv m) :=
  walk_inv v "" none (StateInv.init m)

theorem build_network_fst (v : JsonValue) (sv : Bool) (m : Nat) :
    (build_network v sv m).1 = (build_state v sv m).nodes := rfl

theorem build_network_edges_eq (v : JsonValue) (sv : Bool) (m : Nat) :
    (build_network v sv m).2.1 = (build_state v sv m).edges := rfl

theorem build_network_trunc_eq (v : JsonValue) (sv : Bool) (m : Nat) :
    (build_network v sv m).2.2 = (build_state v sv m).truncated := rfl

/-- C1: for every JSON value and every `max_nodes` cap, `build_network`
returns a node list of length at most `max_nodes` (so emission stops once
the cap is reached), and the returned `truncated` flag is `true` exactly
when at least one node was declined because the cap was reached (the
ghost counter `declined` counts precisely the executions of the source's
`truncated = True; return None` branch).  Truncation is an ordinary
return value of the total function `build_network`, not an error. -/
theorem build_network_node_cap (v : JsonValue) (sv : Bool) (m : Nat) :
    (build_network v sv m).1.length ≤ m ∧
    ((build_network v sv m).2.2 = true ↔ 0 < (build_state v sv m).declined) := by
  have h := build_state_inv v sv m
  exact ⟨h.cap, h.trunc_iff⟩

mutual

theorem preorder_paths_length : ∀ (v : JsonValue) (path : String),
    (preorder_paths v path).length = 1 + count_fields_elems v
  | .obj kvs, path => by
    rw [preorder_paths, count_fields_elems]
    simp only [List.length_cons]
    rw [preorder_fields_length kvs path]
    omega
  | .arr xs, path => by
    rw [preorder_paths, count_fields_elems]
    simp only [List.length_cons]
    rw [preorder_items_length xs path 0]
    omega
  | .null, path => by rw [preorder_paths, count_fields_elems]; rfl
  | .bool b, path => by rw [preorder_paths, count_fields_elems]; rfl
  | .num n, path => by rw [preorder_paths, count_fields_elems]; rfl
  | .str t, path => by rw [preorder_paths, count_fields_elems]; rfl


theorem preorder_fields_length : ∀ (kvs : List (String × JsonValue)) (path : String),
    (preorder_fields kvs path).length = kvs.length + cfe_fields kvs
  | [], path => by rw [preorder_fields, cfe_fields]; rfl
  | (k, v) :: rest, path => by
    rw [preorder_fields, cfe_fields]
    simp only [List.length_append, List.length_cons]
    rw [preorder_paths_length v (field_path path k), preorder_fields_length rest path]
    omega

theorem preorder_items_length : ∀ (xs : List JsonValue) (path : String) (i : Nat),
    (preorder_items xs path i).length = xs.length + cfe_items xs
  | [], path, i => by rw [preorder_items, cfe_items]; rfl
  | v :: rest, path, i => by
    rw [preorder_items, cfe_items]
    simp only [List.length_append, List.length_cons]
    rw [preorder_paths_length v (index_path path i), preorder_items_length rest path (i + 1)]
    omega

end

/-! ## The emitted keys form a subsequence of the depth-first preorder -/

theorem add_node_keys_ext (m : Nat) (p l g : String) (s : BuildState) :
    ∃ u, storedKeys (add_node m p l g s).2 = storedKeys s ++ u ∧ List.Sublist u [p] := by
  unfold add_node
  cases hl : lookupPath p s.path_to_id with
  | some nid => exact ⟨[], by simp [storedKeys], List.nil_sublist _⟩
  | none =>
    by_cases hc : s.nodes.length ≥ m
    · exact ⟨[], by simp [hc, storedKeys], List.nil_sublist _⟩
    · refine ⟨[p], ?_, List.Sublist.refl _⟩
      simp [hc, storedKeys]

theorem enter_node_keys_ext (m : Nat) (p l g : String) (par : Option Nat) (s : BuildState) :
    ∃ u, storedKeys (enter_node m p l g par s).2 = storedKeys s ++ u ∧ List.Sublist u [p] := by
  unfold enter_node
  rcases ha : add_node m p l g s with ⟨onid, s1⟩
  have h1 : ∃ u, storedKeys s1 = storedKeys s ++ u ∧ List.Sublist u [p] := by
    have := add_node_keys_ext m p l g s
    rwa [ha] at this
  cases onid with
  | none => exact h1
  | some nid =>
    cases par with
    | none => exact h1
    | some q => exact h1

mutual

theorem walk_keys_sublist (m : Nat) (sv : Bool) : ∀ (v : JsonValue) (path : String)
    (par : Option Nat) (s : BuildState),
    ∃ t, storedKeys (walk m sv v path par s) = storedKeys s ++ t ∧ List.Sublist t (preorder_paths v path)
  | v, path, par, s => by
    by_cases ht : s.truncated = true
    · rw [walk_truncated ht]
      exact ⟨[], by simp, List.nil_sublist _⟩
    · cases v with
      | obj kvs =>
        rw [walk_obj, if_neg ht, preorder_paths]
        obtain ⟨u, hu, hus⟩ := enter_node_keys_ext m (if path = "" then "root" else path)
          ((if path = "" then "root" else last_segment path) ++ " {}") "object" par s
        rcases h : enter_node m (if path = "" then "root" else path)
            ((if path = "" then "root" else last_segment path) ++ " {}") "object" par s
          with ⟨onid, s1⟩
        rw [h] at hu
        cases onid with
        | none =>
          exact ⟨u, hu, hus.trans (by simp)⟩
        | some nid =>
          obtain ⟨t, htt, hts⟩ := walkFields_keys_sublist m sv kvs path nid s1
          refine ⟨u ++ t, ?_, ?_⟩
          · rw [htt, hu, List.append_assoc]
          · have : List.Sublist (u ++ t) ([if path = "" then "root" else path] ++ preorder_fields kvs path) :=
              List.Sublist.append hus hts
            simpa using this
      | arr xs =>
        rw [walk_arr, if_neg ht, preorder_paths]
        obtain ⟨u, hu, hus⟩ := enter_node_keys_ext m (if path = "" then "root" else path)
          ((if path = "" then "root" else last_segment path) ++
            " [" ++ toString xs.length ++ "]") "array" par s
        rcases h : enter_node m (if path = "" then "root" else path)
            ((if path = "" then "root" else last_segment path) ++
              " [" ++ toString xs.length ++ "]") "array" par s
          with ⟨onid, s1⟩
        rw [h] at hu
        cases onid with
        | none =>
          exact ⟨u, hu, hus.trans (by simp)⟩
        | some nid =>
          obtain ⟨t, htt, hts⟩ := walkItems_keys_sublist m sv xs path 0 nid s1
          refine ⟨u ++ t, ?_, ?_⟩
          · rw [htt, hu, List.append_assoc]
          · have : List.Sublist (u ++ t) ([if path = "" then "root" else path] ++ preorder_items xs path 0) :=
              List.Sublist.append hus hts
            simpa using this
      | null =>
        rw [walk_null, if_neg ht, preorder_paths]
        obtain ⟨u, hu, hus⟩ := enter_node_keys_ext m path
          (if sv then _value_preview .null else type_name .null) "value" par s
        exact ⟨u, hu, hus⟩
      | bool b =>
        rw [walk_bool, if_neg ht, preorder_paths]
        obtain ⟨u, hu, hus⟩ := enter_node_keys_ext m path
          (if sv then _value_preview (.bool b) else type_name (.bool b)) "value" par s
        exact ⟨u, hu, hus⟩
      | num n =>
        rw [walk_num, if_neg ht, preorder_paths]
        obtain ⟨u, hu, hus⟩ := enter_node_keys_ext m path
          (if sv then _value_preview (.num n) else type_name (.num n)) "value" par s
        exact ⟨u, hu, hus⟩
      | str t' =>
        rw [walk_str, if_neg ht, preorder_paths]
        obtain ⟨u, hu, hus⟩ := enter_node_keys_ext m path
          (if sv then _value_preview (.str t') else type_name (.str t')) "value" par s
        exact ⟨u, hu, hus⟩

theorem walkFields_keys_sublist (m : Nat) (sv : Bool) :
    ∀ (kvs : List (String × JsonValue)) (path : String) (nid : Nat) (s : BuildState),
    ∃ t, storedKeys (walkFields m sv kvs path nid s) = storedKeys s ++ t ∧
      List.Sublist t (preorder_fields kvs path)
  | [], path, nid, s => by
    rw [walkFields_nil, preorder_fields]
    exact ⟨[], by simp, List.Sublist.refl _⟩
  | (k, v) :: rest, path, nid, s => by
    rw [walkFields_cons, preorder_fields]
    obtain ⟨t1, ht1, hs1⟩ := walk_keys_sublist m sv v (field_path path k) (some nid) s
    obtain ⟨t2, ht2, hs2⟩ := walkFields_keys_sublist m sv rest path nid
      (walk m sv v (field_path path k) (some nid) s)
    exact ⟨t1 ++ t2, by rw [ht2, ht1, List.append_assoc], List.Sublist.append hs1 hs2⟩

theorem walkItems_keys_sublist (m : Nat) (sv : Bool) :
    ∀ (xs : List JsonValue) (path : String) (i : Nat) (nid : Nat) (s : BuildState),
    ∃ t, storedKeys (walkItems m sv xs path i nid s) = storedKeys s ++ t ∧
      List.Sublist t (preorder_items xs path i)
  | [], path, i, nid, s => by
    rw [walkItems_nil, preorder_items]
    exact ⟨[], by simp, List.Sublist.refl _⟩
  | v :: rest, path, i, nid, s => by
    rw [walkItems_cons, preorder_items]
    obtain ⟨t1, ht1, hs1⟩ := walk_keys_sublist m sv v (index_path path i) (some nid) s
    obtain ⟨t2, ht2, hs2⟩ := walkItems_keys_sublist m sv rest path (i + 1) nid
      (walk m sv v (index_path path i) (some nid) s)
    exact ⟨t1 ++ t2, by rw [ht2, ht1, List.append_assoc], List.Sublist.append hs1 hs2⟩

end

theorem build_state_keys_sublist (v : JsonValue) (sv : Bool) (m : Nat) :
    List.Sublist (storedKeys (build_state v sv m)) (preorder_paths v "") := by
  obtain ⟨t, ht, hts⟩ := walk_keys_sublist m sv v "" none ⟨[], [], false, [], 1, 0⟩
  rw [build_state]
  rw [show storedKeys ⟨[], [], false, [], 1, 0⟩ = ([] : List String) from rfl] at ht
  rw [ht]
  simpa using hts

theorem build_state_keys_length (v : JsonValue) (sv : Bool) (m : Nat) :
    (storedKeys (build_state v sv m)).length = (build_state v sv m).nodes.length := by
  have h := (build_state_inv v sv m).ptid_snd
  have := congrArg List.length h
  simpa [ids, storedKeys] using this

/-- C3 (amended): `walk` is a recursive depth-first traversal, not
breadth-first: the stored-path sequence of the emitted nodes, in emission
order, is an order-preserving subsequence of the depth-first preorder
listing of the value's locations (children in original key/index order);
it falls short of the full listing only through truncation or path
collisions.  One stored key corresponds to each emitted node, so this
fixes the node order as well; the builder is a pure function of
`(value, show_values, max_nodes)`, hence the order is reproducible. -/
theorem build_network_dfs_order (v : JsonValue) (sv : Bool) (m : Nat) :
    List.Sublist (storedKeys (build_state v sv m)) (preorder_paths v "") ∧
    (storedKeys (build_state v sv m)).length = (build_network v sv m).1.length :=
  ⟨build_state_keys_sublist v sv m, build_state_keys_length v sv m⟩

/-- C3 (counterexample): on `{"a": {"b": 1}, "c": 2}` the builder emits
the depth-2 node `a.b` (id 3) before the depth-1 node `c` (id 4): the
walk is depth-first, refuting "every node at depth d appears before any
node at depth d+1". -/
theorem build_network_not_bfs :
    (build_state (.obj [("a", .obj [("b", .num 1)]), ("c", .num 2)]) true 100).path_to_id =
      [("root", 1), ("a", 2), ("a.b", 3), ("c", 4)] := by
  decide

/-- C4 (amended): a leaf processed within the limits yields exactly one
node — its own, labelled with the value's preview — and no additional
synthetic child: the total node count never exceeds the number of
locations of the tree (1 for the root plus one per object field or array
element). -/
theorem build_network_no_synthetic_nodes (v : JsonValue) (sv : Bool) (m : Nat) :
    (build_network v sv m).1.length ≤ 1 + count_fields_elems v := by
  have h1 := (build_state_keys_sublist v sv m).length_le
  rw [preorder_paths_length v ""] at h1
  have h2 := build_state_keys_length v sv m
  have h3 : (build_network v sv m).1.length = (build_state v sv m).nodes.length := rfl
  omega

/-- C4 (counterexample): on `{"a": 1}` the builder emits exactly two
nodes — the root object and the leaf node for `a` carrying the preview
"1" as its label — and one edge; there is no third synthetic leaf-value
child node with a marker path. -/
theorem build_network_leaf_no_extra_child :
    (build_network (.obj [("a", .num 1)]) true 100).1 =
      [⟨1, "root {}", "object"⟩, ⟨2, "1", "value"⟩] ∧
    (build_network (.obj [("a", .num 1)]) true 100).2.1 = [⟨1, 2⟩] := by
  decide

/-- C5 (amended): node ids are the consecutive integers 1, 2, … in
emission order (not path strings), and `path_to_id` associates each
stored path with the id of the node emitted for it: its keys are
pairwise distinct and its values are exactly the emitted ids in order. -/
theorem build_network_integer_ids (v : JsonValue) (sv : Bool) (m : Nat) :
    (build_network v sv m).1.map (fun nd => nd.id) =
      List.range' 1 (build_network v sv m).1.length ∧
    (build_state v sv m).path_to_id.map Prod.snd =
      (build_network v sv m).1.map (fun nd => nd.id) ∧
    (storedKeys (build_state v sv m)).Nodup := by
  have h := build_state_inv v sv m
  exact ⟨h.ids_eq, h.ptid_snd, h.keys_nodup⟩

/-- C5 (counterexample): the id stored for a node is not its path: it is
the position in emission order.  The node at path `"b"` receives id 3 in
`{"a": 1, "b": 2}` but id 2 in `{"b": 2, "a": 1}`; an id equal to the
path would be identical in both. -/
theorem build_network_id_not_path :
    lookupPath "b" (build_state (.obj [("a", .num 1), ("b", .num 2)]) true 100).path_to_id =
      some 3 ∧
    lookupPath "b" (build_state (.obj [("b", .num 2), ("a", .num 1)]) true 100).path_to_id =
      some 2 := by
  decide

/-- C2 (amended): the graph builder takes only `show_values` and
`max_nodes` besides the value — there is no depth parameter and no depth
cutoff; with an adequate node budget every level is traversed.  On
`{"a": {"b": 1}}` it emits the three nodes `root`, `a`, `a.b` and the two
edges connecting them, with no truncation. -/
theorem build_network_all_levels_example :
    build_network (.obj [("a", .obj [("b", .num 1)])]) true 1200 =
      ([⟨1, "root {}", "object"⟩, ⟨2, "a {}", "object"⟩, ⟨3, "1", "value"⟩],
        [⟨1, 2⟩, ⟨2, 3⟩], false) := by
  decide

/-! ## Exact characterization of `enter_node` in its three regimes -/

theorem enter_node_dedup {m : Nat} {p l g : String} {par : Option Nat} {s : BuildState}
    {nid : Nat} (hhit : lookupPath p s.path_to_id = some nid) :
    enter_node m p l g par s = (some nid, match par with
      | some q => { s with edges := s.edges ++ [⟨q, nid⟩] }
      | none => s) := by
  unfold enter_node add_node
  rw [hhit]
  cases par with
  | none => rfl
  | some q => rfl

theorem enter_node_declined {m : Nat} {p l g : String} {par : Option Nat} {s : BuildState}
    (hmiss : lookupPath p s.path_to_id = none) (hlen : m ≤ s.nodes.length) :
    enter_node m p l g par s =
      (none, { s with truncated := true, declined := s.declined + 1 }) := by
  unfold enter_node add_node
  rw [hmiss]
  simp [hlen]

theorem enter_node_fresh {m : Nat} {p l g : String} {par : Option Nat} {s : BuildState}
    (hmiss : lookupPath p s.path_to_id = none) (hlen : s.nodes.length < m) :
    enter_node m p l g par s =
      (some s.next_id,
        { s with
          next_id := s.next_id + 1
          path_to_id := s.path_to_id ++ [(p, s.next_id)]
          nodes := s.nodes ++ [⟨s.next_id, l, g⟩]
          edges := s.edges ++ (match par with
            | some q => [⟨q, s.next_id⟩]
            | none => []) }) := by
  unfold enter_node add_node
  rw [hmiss]
  simp only [show ¬ (s.nodes.length ≥ m) from by omega, ite_false]
  cases par with
  | none => simp
  | some q => simp

theorem StateInv.keys_length {m : Nat} {s : BuildState} (h : StateInv m s) :
    (storedKeys s).length = s.nodes.length := by
  have := congrArg List.length h.ptid_snd
  simpa [ids, storedKeys] using this

/-! ## Exact emission: with pairwise-distinct paths and enough budget the
builder stores exactly the depth-first preorder listing -/

mutual

theorem walk_exact {m : Nat} (sv : Bool) : ∀ (v : JsonValue) (path : String)
    (par : Option Nat) (s : BuildState),
    StateInv m s →
    (preorder_paths v path).Nodup →
    (∀ q ∈ preorder_paths v path, q ∉ storedKeys s) →
    s.truncated = false →
    s.nodes.length + (preorder_paths v path).length ≤ m →
    storedKeys (walk m sv v path par s) = storedKeys s ++ preorder_paths v path ∧
    (walk m sv v path par s).truncated = false
  | v, path, par, s => by
    intro hInv hnd hdisj htr hbud
    cases v with
    | obj kvs =>
      rw [walk_obj, if_neg (by simp [htr])]
      rw [preorder_paths] at hnd hdisj hbud ⊢
      have hmiss : lookupPath (if path = "" then "root" else path) s.path_to_id = none :=
        lookupPath_eq_none.mpr (hdisj _ (List.mem_cons_self _ _))
      have hlen : s.nodes.length < m := by
        simp only [List.length_cons] at hbud
        omega
      have hInv1 := @enter_node_inv m (if path = "" then "root" else path)
        ((if path = "" then "root" else last_segment path) ++ " {}") "object" par s hInv
      rw [enter_node_fresh hmiss hlen] at hInv1 ⊢
      have hres := walkFields_exact sv kvs path s.next_id _ hInv1 hnd.of_cons
        (by
          intro q hq
          have h1 : q ∉ storedKeys s := hdisj q (List.mem_cons_of_mem _ hq)
          have h2 : q ≠ (if path = "" then "root" else path) := by
            intro hqe
            exact (List.nodup_cons.mp hnd).1 (hqe ▸ hq)
          simp only [storedKeys, List.map_append, List.mem_append, not_or,
            List.map_cons, List.map_nil, List.mem_singleton]
          exact ⟨h1, h2⟩)
        (by simp [htr])
        (by
          simp only [List.length_append, List.length_cons, List.length_nil] at hbud ⊢
          omega)
      refine ⟨?_, hres.2⟩
      rw [hres.1]
      simp [storedKeys]
    | arr xs =>
      rw [walk_arr, if_neg (by simp [htr])]
      rw [preorder_paths] at hnd hdisj hbud ⊢
      have hmiss : lookupPath (if path = "" then "root" else path) s.path_to_id = none :=
        lookupPath_eq_none.mpr (hdisj _ (List.mem_cons_self _ _))
      have hlen : s.nodes.length < m := by
        simp only [List.length_cons] at hbud
        omega
      have hInv1 := @enter_node_inv m (if path = "" then "root" else path)
        ((if path = "" then "root" else last_segment path) ++
          " [" ++ toString xs.length ++ "]") "array" par s hInv
      rw [enter_node_fresh hmiss hlen] at hInv1 ⊢
      have hres := walkItems_exact sv xs path 0 s.next_id _ hInv1 hnd.of_cons
        (by
          intro q hq
          have h1 : q ∉ storedKeys s := hdisj q (List.mem_cons_of_mem _ hq)
          have h2 : q ≠ (if path = "" then "root" else path) := by
            intro hqe
            exact (List.nodup_cons.mp hnd).1 (hqe ▸ hq)
          simp only [storedKeys, List.map_append, List.mem_append, not_or,
            List.map_cons, List.map_nil, List.mem_singleton]
          exact ⟨h1, h2⟩)
        (by simp [htr])
        (by
          simp only [List.length_append, List.length_cons, List.length_nil] at hbud ⊢
          omega)
      refine ⟨?_, hres.2⟩
      rw [hres.1]
      simp [storedKeys]
    | null =>
      rw [walk_null, if_neg (by simp [htr]), leaf_case]
      rw [preorder_paths] at hdisj hbud ⊢
      have hmiss : lookupPath path s.path_to_id = none :=
        lookupPath_eq_none.mpr (hdisj _ (List.mem_cons_self _ _))
      have hlen : s.nodes.length < m := by
        simp only [List.length_cons] at hbud
        omega
      rw [enter_node_fresh hmiss hlen]
      exact ⟨by simp [storedKeys], by simp [htr]⟩
    | bool b =>
      rw [walk_bool, if_neg (by simp [htr]), leaf_case]
      rw [preorder_paths] at hdisj hbud ⊢
      have hmiss : lookupPath path s.path_to_id = none :=
        lookupPath_eq_none.mpr (hdisj _ (List.mem_cons_self _ _))
      have hlen : s.nodes.length < m := by
        simp only [List.length_cons] at hbud
        omega
      rw [enter_node_fresh hmiss hlen]
      exact ⟨by simp [storedKeys], by simp [htr]⟩
    | num n =>
      rw [walk_num, if_neg (by simp [htr]), leaf_case]
      rw [preorder_paths] at hdisj hbud ⊢
      have hmiss : lookupPath path s.path_to_id = none :=
        lookupPath_eq_none.mpr (hdisj _ (List.mem_cons_self _ _))
      have hlen : s.nodes.length < m := by
        simp only [List.length_cons] at hbud
        omega
      rw [enter_node_fresh hmiss hlen]
      exact ⟨by simp [storedKeys], by simp [htr]⟩
    | str t =>
      rw [walk_str, if_neg (by simp [htr]), leaf_case]
      rw [preorder_paths] at hdisj hbud ⊢
      have hmiss : lookupPath path s.path_to_id = none :=
        lookupPath_eq_none.mpr (hdisj _ (List.mem_cons_self _ _))
      have hlen : s.nodes.length < m := by
        simp only [List.length_cons] at hbud
        omega
      rw [enter_node_fresh hmiss hlen]
      exact ⟨by simp [storedKeys], by simp [htr]⟩

theorem walkFields_exact {m : Nat} (sv : Bool) : ∀ (kvs : List (String × JsonValue))
    (path : String) (nid : Nat) (s : BuildState),
    StateInv m s →
    (preorder_fields kvs path).Nodup →
    (∀ q ∈ preorder_fields kvs path, q ∉ storedKeys s) →
    s.truncated = false →
    s.nodes.length + (preorder_fields kvs path).length ≤ m →
    storedKeys (walkFields m sv kvs path nid s) = storedKeys s ++ preorder_fields kvs path ∧
    (walkFields m sv kvs path nid s).truncated = false
  | [], path, nid, s => by
    intro hInv hnd hdisj htr hbud
    rw [walkFields_nil, preorder_fields]
    exact ⟨by simp, htr⟩
  | (k, v) :: rest, path, nid, s => by
    intro hInv hnd hdisj htr hbud
    rw [walkFields_cons, preorder_fields]
    rw [preorder_fields] at hnd hdisj hbud
    obtain ⟨hnd1, hnd2, hdj⟩ := List.nodup_append.mp hnd
    obtain ⟨hkeys1, htr1⟩ := walk_exact sv v (field_path path k) (some nid) s hInv hnd1
      (fun q hq => hdisj q (List.mem_append_left _ hq)) htr
      (by simp only [List.length_append] at hbud; omega)
    have hInv1 := @walk_inv m sv v (field_path path k) (some nid) s hInv
    have hlen1 : (walk m sv v (field_path path k) (some nid) s).nodes.length =
        s.nodes.length + (preorder_paths v (field_path path k)).length := by
      have e1 := hInv1.keys_length
      have e2 := hInv.keys_length
      rw [hkeys1] at e1
      simp only [List.length_append] at e1
      omega
    obtain ⟨hkeys2, htr2⟩ := walkFields_exact sv rest path nid _ hInv1 hnd2
      (by
        intro q hq
        rw [hkeys1]
        simp only [List.mem_append, not_or]
        exact ⟨hdisj q (List.mem_append_right _ hq), fun hc => hdj hc hq⟩)
      htr1
      (by
        rw [hlen1]
        simp only [List.length_append] at hbud
        omega)
    rw [hkeys2, hkeys1, List.append_assoc]
    exact ⟨rfl, htr2⟩

theorem walkItems_exact {m : Nat} (sv : Bool) : ∀ (xs : List JsonValue)
    (path : String) (i : Nat) (nid : Nat) (s : BuildState),
    StateInv m s →
    (preorder_items xs path i).Nodup →
    (∀ q ∈ preorder_items xs path i, q ∉ storedKeys s) →
    s.truncated = false →
    s.nodes.length + (preorder_items xs path i).length ≤ m →
    storedKeys (walkItems m sv xs path i nid s) = storedKeys s ++ preorder_items xs path i ∧
    (walkItems m sv xs path i nid s).truncated = false
  | [], path, i, nid, s => by
    intro hInv hnd hdisj htr hbud
    rw [walkItems_nil, preorder_items]
    exact ⟨by simp, htr⟩
  | v :: rest, path, i, nid, s => by
    intro hInv hnd hdisj htr hbud
    rw [walkItems_cons, preorder_items]
    rw [preorder_items] at hnd hdisj hbud
    obtain ⟨hnd1, hnd2, hdj⟩ := List.nodup_append.mp hnd
    obtain ⟨hkeys1, htr1⟩ := walk_exact sv v (index_path path i) (some nid) s hInv hnd1
      (fun q hq => hdisj q (List.mem_append_left _ hq)) htr
      (by simp only [List.length_append] at hbud; omega)
    have hInv1 := @walk_inv m sv v (index_path path i) (some nid) s hInv
    have hlen1 : (walk m sv v (index_path path i) (some nid) s).nodes.length =
        s.nodes.length + (preorder_paths v (index_path path i)).length := by
      have e1 := hInv1.keys_length
      have e2 := hInv.keys_length
      rw [hkeys1] at e1
      simp only [List.length_append] at e1
      omega
    obtain ⟨hkeys2, htr2⟩ := walkItems_exact sv rest path (i + 1) nid _ hInv1 hnd2
      (by
        intro q hq
        rw [hkeys1]
        simp only [List.mem_append, not_or]
        exact ⟨hdisj q (List.mem_append_right _ hq), fun hc => hdj hc hq⟩)
      htr1
      (by
        rw [hlen1]
        simp only [List.length_append] at hbud
        omega)
    rw [hkeys2, hkeys1, List.append_assoc]
    exact ⟨rfl, htr2⟩

end

theorem build_state_keys_exact (v : JsonValue) (sv : Bool) (m : Nat)
    (hnd : (preorder_paths v "").Nodup) (hbud : 1 + count_fields_elems v ≤ m) :
    storedKeys (build_state v sv m) = preorder_paths v "" ∧
    (build_state v sv m).truncated = false := by
  have h := walk_exact sv v "" none ⟨[], [], false, [], 1, 0⟩ (StateInv.init m) hnd
    (by intro q hq; simp [storedKeys])
    rfl
    (by
      rw [show (⟨[], [], false, [], 1, 0⟩ : BuildState).nodes.length = 0 from rfl,
        preorder_paths_length v ""]
      omega)
  rw [build_state]
  constructor
  · rw [h.1]
    simp [storedKeys]
  · exact h.2

/-- C2 (counterexample): `build_network` has no `maxDepth` parameter and
cuts nothing at any depth: called with the default node budget on a
9-level nesting `{"a": {"a": … 1 …}}` it emits the node stored at path
`a.a.a.a.a.a.a.a.a` (depth 9) and returns 10 nodes in total — under the
claimed default `maxDepth = 8` no node deeper than 8 could be emitted
and at most 9 nodes could be returned. -/
theorem build_network_no_depth_cutoff :
    "a.a.a.a.a.a.a.a.a" ∈ storedKeys (build_state (chain 9) true 1200) ∧
    (build_network (chain 9) true 1200).1.length = 10 := by
  have hpre : preorder_paths (chain 9) "" =
      ["root", "a", "a.a", "a.a.a", "a.a.a.a", "a.a.a.a.a", "a.a.a.a.a.a",
        "a.a.a.a.a.a.a", "a.a.a.a.a.a.a.a", "a.a.a.a.a.a.a.a.a"] := by
    simp [chain, preorder_paths, preorder_fields, field_path]
  have hcnt : count_fields_elems (chain 9) = 9 := by
    simp [chain, count_fields_elems, cfe_fields]
  have h := build_state_keys_exact (chain 9) true 1200
    (by rw [hpre]; decide) (by rw [hcnt]; omega)
  constructor
  · rw [h.1, hpre]
    decide
  · have hl := build_state_keys_length (chain 9) true 1200
    rw [h.1, hpre] at hl
    rw [build_network_fst, ← hl]
    rfl

/-! ## Budget simulation: a smaller node budget yields a prefix-like run -/

theorem walk_nodes_le {m : Nat} {sv : Bool} (v : JsonValue) (path : String)
    (par : Option Nat) (s : BuildState) :
    s.nodes.length ≤ (walk m sv v path par s).nodes.length := by
  obtain ⟨t, ht⟩ := @walk_nodes_ext m sv v path par s
  simp [ht]

theorem walkFields_nodes_le {m : Nat} {sv : Bool} (kvs : List (String × JsonValue))
    (path : String) (nid : Nat) (s : BuildState) :
    s.nodes.length ≤ (walkFields m sv kvs path nid s).nodes.length := by
  refine walkFields_pres (P := fun s' => s.nodes.length ≤ s'.nodes.length) ?_ kvs path nid s
    (le_refl _)
  intro p l g pr s' h'
  obtain ⟨u, hu⟩ := enter_node_nodes_ext m p l g pr s'
  simp [hu]
  omega

theorem walkItems_nodes_le {m : Nat} {sv : Bool} (xs : List JsonValue)
    (path : String) (i nid : Nat) (s : BuildState) :
    s.nodes.length ≤ (walkItems m sv xs path i nid s).nodes.length := by
  refine walkItems_pres (P := fun s' => s.nodes.length ≤ s'.nodes.length) ?_ xs path i nid s
    (le_refl _)
  intro p l g pr s' h'
  obtain ⟨u, hu⟩ := enter_node_nodes_ext m p l g pr s'
  simp [hu]
  omega

theorem enter_node_sim {m1 m2 : Nat} (hm : m1 ≤ m2) (p l g : String) (par : Option Nat)
    (s : BuildState) :
    enter_node m1 p l g par s = enter_node m2 p l g par s ∨
    ((enter_node m1 p l g par s).1 = none ∧
      (enter_node m1 p l g par s).2.truncated = true ∧
      (enter_node m1 p l g par s).2.nodes = s.nodes ∧
      s.nodes.length ≤ (enter_node m2 p l g par s).2.nodes.length) := by
  cases hl : lookupPath p s.path_to_id with
  | some nid =>
    left
    rw [enter_node_dedup hl, enter_node_dedup hl]
  | none =>
    by_cases h1 : s.nodes.length < m1
    · left
      rw [enter_node_fresh hl h1, enter_node_fresh hl (lt_of_lt_of_le h1 hm)]
    · by_cases h2 : s.nodes.length < m2
      · right
        rw [enter_node_declined hl (by omega), enter_node_fresh hl h2]
        exact ⟨rfl, rfl, rfl, by simp⟩
      · left
        rw [enter_node_declined hl (by omega), enter_node_declined hl (by omega)]

mutual

theorem walk_sim {sv : Bool} {m1 m2 : Nat} (hm : m1 ≤ m2) : ∀ (v : JsonValue) (path : String)
    (par : Option Nat) (s1 s2 : BuildState),
    (s1 = s2 ∨ (s1.truncated = true ∧ s1.nodes.length ≤ s2.nodes.length)) →
    (walk m1 sv v path par s1 = walk m2 sv v path par s2 ∨
      ((walk m1 sv v path par s1).truncated = true ∧
        (walk m1 sv v path par s1).nodes.length ≤ (walk m2 sv v path par s2).nodes.length))
  | v, path, par, s1, s2, hR => by
    rcases hR with rfl | ⟨htr1, hlen⟩
    · by_cases ht : s1.truncated = true
      · left
        rw [walk_truncated ht, walk_truncated ht]
      · cases v with
        | obj kvs =>
          rw [walk_obj, walk_obj, if_neg ht, if_neg ht]
          rcases enter_node_sim hm (if path = "" then "root" else path)
              ((if path = "" then "root" else last_segment path) ++ " {}") "object" par s1
            with heq | ⟨hnone, htr', hnodes', hle⟩
          · rw [heq]
            rcases h2 : enter_node m2 (if path = "" then "root" else path)
                ((if path = "" then "root" else last_segment path) ++ " {}") "object" par s1
              with ⟨onid, s'⟩
            cases onid with
            | none => left; rfl
            | some nid => exact walkFields_sim hm kvs path nid s' s' (Or.inl rfl)
          · rcases h1 : enter_node m1 (if path = "" then "root" else path)
                ((if path = "" then "root" else last_segment path) ++ " {}") "object" par s1
              with ⟨onid1, s1'⟩
            rw [h1] at hnone htr' hnodes'
            rcases h2 : enter_node m2 (if path = "" then "root" else path)
                ((if path = "" then "root" else last_segment path) ++ " {}") "object" par s1
              with ⟨onid2, s2'⟩
            rw [h2] at hle
            simp only at hnone htr' hnodes' hle
            subst hnone
            cases onid2 with
            | none =>
              right
              exact ⟨htr', by rw [hnodes']; exact hle⟩
            | some nid2 =>
              right
              exact ⟨htr', by
                rw [hnodes']
                exact hle.trans (walkFields_nodes_le kvs path nid2 s2')⟩
        | arr xs =>
          rw [walk_arr, walk_arr, if_neg ht, if_neg ht]
          rcases enter_node_sim hm (if path = "" then "root" else path)
              ((if path = "" then "root" else last_segment path) ++
                " [" ++ toString xs.length ++ "]") "array" par s1
            with heq | ⟨hnone, htr', hnodes', hle⟩
          · rw [heq]
            rcases h2 : enter_node m2 (if path = "" then "root" else path)
                ((if path = "" then "root" else last_segment path) ++
                  " [" ++ toString xs.length ++ "]") "array" par s1
              with ⟨onid, s'⟩
            cases onid with
            | none => left; rfl
            | some nid => exact walkItems_sim hm xs path 0 nid s' s' (Or.inl rfl)
          · rcases h1 : enter_node m1 (if path = "" then "root" else path)
                ((if path = "" then "root" else last_segment path) ++
                  " [" ++ toString xs.length ++ "]") "array" par s1
              with ⟨onid1, s1'⟩
            rw [h1] at hnone htr' hnodes'
            rcases h2 : enter_node m2 (if path = "" then "root" else path)
                ((if path = "" then "root" else last_segment path) ++
                  " [" ++ toString xs.length ++ "]") "array" par s1
              with ⟨onid2, s2'⟩
            rw [h2] at hle
            simp only at hnone htr' hnodes' hle
            subst hnone
            cases onid2 with
            | none =>
              right
              exact ⟨htr', by rw [hnodes']; exact hle⟩
            | some nid2 =>
              right
              exact ⟨htr', by
                rw [hnodes']
                exact hle.trans (walkItems_nodes_le xs path 0 nid2 s2')⟩
        | null =>
          rw [walk_null, walk_null, if_neg ht, if_neg ht, leaf_case, leaf_case]
          rcases enter_node_sim hm path
              (if sv then _value_preview .null else type_name .null) "value" par s1
            with heq | ⟨hnone, htr', hnodes', hle⟩
          · left; rw [heq]
          · right
            exact ⟨htr', by rw [hnodes']; exact hle⟩
        | bool b =>
          rw [walk_bool, walk_bool, if_neg ht, if_neg ht, leaf_case, leaf_case]
          rcases enter_node_sim hm path
              (if sv then _value_preview (.bool b) else type_name (.bool b)) "value" par s1
            with heq | ⟨hnone, htr', hnodes', hle⟩
          · left; rw [heq]
          · right
            exact ⟨htr', by rw [hnodes']; exact hle⟩
        | num n =>
          rw [walk_num, walk_num, if_neg ht, if_neg ht, leaf_case, leaf_case]
          rcases enter_node_sim hm path
              (if sv then _value_preview (.num n) else type_name (.num n)) "value" par s1
            with heq | ⟨hnone, htr', hnodes', hle⟩
          · left; rw [heq]
          · right
            exact ⟨htr', by rw [hnodes']; exact hle⟩
        | str t =>
          rw [walk_str, walk_str, if_neg ht, if_neg ht, leaf_case, leaf_case]
          rcases enter_node_sim hm path
              (if sv then _value_preview (.str t) else type_name (.str t)) "value" par s1
            with heq | ⟨hnone, htr', hnodes', hle⟩
          · left; rw [heq]
          · right
            exact ⟨htr', by rw [hnodes']; exact hle⟩
    · rw [walk_truncated htr1]
      right
      exact ⟨htr1, hlen.trans (walk_nodes_le v path par s2)⟩

theorem walkFields_sim {sv : Bool} {m1 m2 : Nat} (hm : m1 ≤ m2) :
    ∀ (kvs : List (String × JsonValue)) (path : String) (nid : Nat) (s1 s2 : BuildState),
    (s1 = s2 ∨ (s1.truncated = true ∧ s1.nodes.length ≤ s2.nodes.length)) →
    (walkFields m1 sv kvs path nid s1 = walkFields m2 sv kvs path nid s2 ∨
      ((walkFields m1 sv kvs path nid s1).truncated = true ∧
        (walkFields m1 sv kvs path nid s1).nodes.length ≤
          (walkFields m2 sv kvs path nid s2).nodes.length))
  | [], path, nid, s1, s2, hR => by
    rw [walkFields_nil, walkFields_nil]
    exact hR
  | (k, v) :: rest, path, nid, s1, s2, hR => by
    rw [walkFields_cons, walkFields_cons]
    exact walkFields_sim hm rest path nid _ _
      (walk_sim hm v (field_path path k) (some nid) s1 s2 hR)

theorem walkItems_sim {sv : Bool} {m1 m2 : Nat} (hm : m1 ≤ m2) :
    ∀ (xs : List JsonValue) (path : String) (i nid : Nat) (s1 s2 : BuildState),
    (s1 = s2 ∨ (s1.truncated = true ∧ s1.nodes.length ≤ s2.nodes.length)) →
    (walkItems m1 sv xs path i nid s1 = walkItems m2 sv xs path i nid s2 ∨
      ((walkItems m1 sv xs path i nid s1).truncated = true ∧
        (walkItems m1 sv xs path i nid s1).nodes.length ≤
          (walkItems m2 sv xs path i nid s2).nodes.length))
  | [], path, i, nid, s1, s2, hR => by
    rw [walkItems_nil, walkItems_nil]
    exact hR
  | v :: rest, path, i, nid, s1, s2, hR => by
    rw [walkItems_cons, walkItems_cons]
    exact walkItems_sim hm rest path (i + 1) nid _ _
      (walk_sim hm v (index_path path i) (some nid) s1 s2 hR)

end

/-- C7: truncation monotonicity.  For a fixed value and configuration and
node budgets `m1 ≤ m2`, the run with the smaller budget emits no more
nodes, and if the larger-budget run was truncated then so was the
smaller-budget run. -/
theorem build_network_monotone (v : JsonValue) (sv : Bool) {m1 m2 : Nat} (hm : m1 ≤ m2) :
    (build_network v sv m1).1.length ≤ (build_network v sv m2).1.length ∧
    ((build_network v sv m2).2.2 = true → (build_network v sv m1).2.2 = true) := by
  have h := @walk_sim sv m1 m2 hm v "" none ⟨[], [], false, [], 1, 0⟩ ⟨[], [], false, [], 1, 0⟩
    (Or.inl rfl)
  rw [build_network_fst, build_network_fst, build_network_trunc_eq, build_network_trunc_eq]
  rw [build_state, build_state]
  rcases h with heq | ⟨ht, hle⟩
  · rw [heq]
    exact ⟨le_refl _, fun h' => h'⟩
  · exact ⟨hle, fun _ => ht⟩

/-- Witness for C7 at `{"a": 1}`, budgets 1 ≤ 2. -/
theorem build_network_monotone_witness :
    (1 : Nat) ≤ 2 ∧
    ((build_network (.obj [("a", .num 1)]) true 1).1.length ≤
        (build_network (.obj [("a", .num 1)]) true 2).1.length ∧
      ((build_network (.obj [("a", .num 1)]) true 2).2.2 = true →
        (build_network (.obj [("a", .num 1)]) true 1).2.2 = true)) :=
  ⟨by decide, build_network_monotone (.obj [("a", .num 1)]) true (by decide)⟩

/-! ## Edge well-formedness -/

theorem enter_node_next_le (m : Nat) (p l g : String) (par : Option Nat) (s : BuildState) :
    s.next_id ≤ (enter_node m p l g par s).2.next_id := by
  cases hl : lookupPath p s.path_to_id with
  | some nid =>
    rw [enter_node_dedup hl]
    cases par with
    | none => exact le_refl _
    | some q => exact le_refl _
  | none =>
    by_cases hlen : s.nodes.length < m
    · rw [enter_node_fresh hl hlen]
      simp
    · rw [enter_node_declined hl (by omega)]

theorem walk_next_le {m : Nat} {sv : Bool} (v : JsonValue) (path : String)
    (par : Option Nat) (s : BuildState) : s.next_id ≤ (walk m sv v path par s).next_id := by
  refine walk_pres (P := fun s' => s.next_id ≤ s'.next_id) ?_ v path par s (le_refl _)
  intro p l g pr s' h'
  exact h'.trans (enter_node_next_le m p l g pr s')

theorem enter_node_edges_mem {m : Nat} {p l g : String} {par : Option Nat} {s : BuildState}
    (hInv : StateInv m s)
    (hpar : ∀ q, par = some q → q ∈ ids s)
    (he : ∀ e ∈ s.edges, e.from_ ∈ ids s ∧ e.to_ ∈ ids s) :
    ∀ e ∈ (enter_node m p l g par s).2.edges,
      e.from_ ∈ ids (enter_node m p l g par s).2 ∧
      e.to_ ∈ ids (enter_node m p l g par s).2 := by
  cases hl : lookupPath p s.path_to_id with
  | some nid =>
    have hnid : nid ∈ ids s := by
      have := lookupPath_some_mem hl
      rwa [hInv.ptid_snd] at this
    rw [enter_node_dedup hl]
    cases par with
    | none => exact he
    | some q =>
      intro e hme
      simp only [List.mem_append, List.mem_singleton] at hme
      rcases hme with hme | rfl
      · exact he e hme
      · exact ⟨hpar q rfl, hnid⟩
  | none =>
    by_cases hlen : s.nodes.length < m
    · rw [enter_node_fresh hl hlen]
      have hsub : ∀ x, x ∈ ids s → x ∈ ids ({ s with
          next_id := s.next_id + 1
          path_to_id := s.path_to_id ++ [(p, s.next_id)]
          nodes := s.nodes ++ [⟨s.next_id, l, g⟩]
          edges := s.edges ++ (match par with
            | some q => [⟨q, s.next_id⟩]
            | none => []) } : BuildState) := by
        intro x hx
        simp only [ids, List.map_append, List.mem_append]
        exact Or.inl hx
      have hnew : s.next_id ∈ ids ({ s with
          next_id := s.next_id + 1
          path_to_id := s.path_to_id ++ [(p, s.next_id)]
          nodes := s.nodes ++ [⟨s.next_id, l, g⟩]
          edges := s.edges ++ (match par with
            | some q => [⟨q, s.next_id⟩]
            | none => []) } : BuildState) := by
        simp [ids]
      intro e hme
      simp only at hme
      cases par with
      | none =>
        simp only [List.append_nil] at hme
        obtain ⟨h1, h2⟩ := he e hme
        exact ⟨hsub _ h1, hsub _ h2⟩
      | some q =>
        simp only [List.mem_append, List.mem_singleton] at hme
        rcases hme with hme | rfl
        · obtain ⟨h1, h2⟩ := he e hme
          exact ⟨hsub _ h1, hsub _ h2⟩
        · exact ⟨hsub _ (hpar q rfl), hnew⟩
    · rw [enter_node_declined hl (by omega)]
      exact he

mutual

theorem walk_edges_mem {m : Nat} {sv : Bool} : ∀ (v : JsonValue) (path : String)
    (par : Option Nat) (s : BuildState),
    StateInv m s →
    (∀ q, par = some q → q ∈ ids s) →
    (∀ e ∈ s.edges, e.from_ ∈ ids s ∧ e.to_ ∈ ids s) →
    ∀ e ∈ (walk m sv v path par s).edges,
      e.from_ ∈ ids (walk m sv v path par s) ∧ e.to_ ∈ ids (walk m sv v path par s)
  | v, path, par, s => by
    intro hInv hpar he
    by_cases ht : s.truncated = true
    · rw [walk_truncated ht]
      exact he
    · cases v with
      | obj kvs =>
        rw [walk_obj, if_neg ht]
        have hInv1 := @enter_node_inv m (if path = "" then "root" else path)
          ((if path = "" then "root" else last_segment path) ++ " {}") "object" par s hInv
        have he1 := @enter_node_edges_mem m (if path = "" then "root" else path)
          ((if path = "" then "root" else last_segment path) ++ " {}") "object" par s
          hInv hpar he
        have hsome := fun nid => @enter_node_some_mem m
          (if path = "" then "root" else path)
          ((if path = "" then "root" else last_segment path) ++ " {}") "object"
          par s nid hInv
        rcases h : enter_node m (if path = "" then "root" else path)
            ((if path = "" then "root" else last_segment path) ++ " {}") "object" par s
          with ⟨onid, s1⟩
        rw [h] at hInv1 he1 hsome
        cases onid with
        | none => exact he1
        | some nid =>
          exact walkFields_edges_mem kvs path nid s1 hInv1 (hsome nid rfl) he1
      | arr xs =>
        rw [walk_arr, if_neg ht]
        have hInv1 := @enter_node_inv m (if path = "" then "root" else path)
          ((if path = "" then "root" else last_segment path) ++
            " [" ++ toString xs.length ++ "]") "array" par s hInv
        have he1 := @enter_node_edges_mem m (if path = "" then "root" else path)
          ((if path = "" then "root" else last_segment path) ++
            " [" ++ toString xs.length ++ "]") "array" par s hInv hpar he
        have hsome := fun nid => @enter_node_some_mem m
          (if path = "" then "root" else path)
          ((if path = "" then "root" else last_segment path) ++
            " [" ++ toString xs.length ++ "]") "array"
          par s nid hInv
        rcases h : enter_node m (if path = "" then "root" else path)
            ((if path = "" then "root" else last_segment path) ++
              " [" ++ toString xs.length ++ "]") "array" par s
          with ⟨onid, s1⟩
        rw [h] at hInv1 he1 hsome
        cases onid with
        | none => exact he1
        | some nid =>
          exact walkItems_edges_mem xs path 0 nid s1 hInv1 (hsome nid rfl) he1
      | null =>
        rw [walk_null, if_neg ht, leaf_case]
        exact enter_node_edges_mem hInv hpar he
      | bool b =>
        rw [walk_bool, if_neg ht, leaf_case]
        exact enter_node_edges_mem hInv hpar he
      | num n =>
        rw [walk_num, if_neg ht, leaf_case]
        exact enter_node_edges_mem hInv hpar he
      | str t =>
        rw [walk_str, if_neg ht, leaf_case]
        exact enter_node_edges_mem hInv hpar he

theorem walkFields_edges_mem {m : Nat} {sv : Bool} :
    ∀ (kvs : List (String × JsonValue)) (path : String) (nid : Nat) (s : BuildState),
    StateInv m s →
    nid ∈ ids s →
    (∀ e ∈ s.edges, e.from_ ∈ ids s ∧ e.to_ ∈ ids s) →
    ∀ e ∈ (walkFields m sv kvs path nid s).edges,
      e.from_ ∈ ids (walkFields m sv kvs path nid s) ∧
      e.to_ ∈ ids (walkFields m sv kvs path nid s)
  | [], path, nid, s => by
    intro hInv hnid he
    rw [walkFields_nil]
    exact he
  | (k, v) :: rest, path, nid, s => by
    intro hInv hnid he
    rw [walkFields_cons]
    exact walkFields_edges_mem rest path nid _
      (walk_inv v (field_path path k) (some nid) hInv)
      (walk_mem_ids v (field_path path k) (some nid) hnid)
      (walk_edges_mem v (field_path path k) (some nid) s hInv
        (by intro q hq; cases hq; exact hnid) he)

theorem walkItems_edges_mem {m : Nat} {sv : Bool} :
    ∀ (xs : List JsonValue) (path : String) (i nid : Nat) (s : BuildState),
    StateInv m s →
    nid ∈ ids s →
    (∀ e ∈ s.edges, e.from_ ∈ ids s ∧ e.to_ ∈ ids s) →
    ∀ e ∈ (walkItems m sv xs path i nid s).edges,
      e.from_ ∈ ids (walkItems m sv xs path i nid s) ∧
      e.to_ ∈ ids (walkItems m sv xs path i nid s)
  | [], path, i, nid, s => by
    intro hInv hnid he
    rw [walkItems_nil]
    exact he
  | v :: rest, path, i, nid, s => by
    intro hInv hnid he
    rw [walkItems_cons]
    exact walkItems_edges_mem rest path (i + 1) nid _
      (walk_inv v (index_path path i) (some nid) hInv)
      (walk_mem_ids v (index_path path i) (some nid) hnid)
      (walk_edges_mem v (index_path path i) (some nid) s hInv
        (by intro q hq; cases hq; exact hnid) he)

end

theorem enter_node_edges_lt {m : Nat} {p l g : String} {par : Option Nat} {s : BuildState}
    (hmiss : lookupPath p s.path_to_id = none)
    (hpar : ∀ q, par = some q → q < s.next_id)
    (he : ∀ e ∈ s.edges, e.from_ < e.to_ ∧ e.to_ < s.next_id) :
    (∀ e ∈ (enter_node m p l g par s).2.edges,
      e.from_ < e.to_ ∧ e.to_ < (enter_node m p l g par s).2.next_id) ∧
    (∀ nid, (enter_node m p l g par s).1 = some nid →
      nid < (enter_node m p l g par s).2.next_id) := by
  by_cases hlen : s.nodes.length < m
  · rw [enter_node_fresh hmiss hlen]
    refine ⟨?_, ?_⟩
    · intro e hme
      simp only at hme
      cases par with
      | none =>
        simp only [List.append_nil] at hme
        obtain ⟨h1, h2⟩ := he e hme
        exact ⟨h1, show e.to_ < s.next_id + 1 by omega⟩
      | some q =>
        simp only [List.mem_append, List.mem_singleton] at hme
        rcases hme with hme | rfl
        · obtain ⟨h1, h2⟩ := he e hme
          exact ⟨h1, show e.to_ < s.next_id + 1 by omega⟩
        · exact ⟨hpar q rfl, show s.next_id < s.next_id + 1 by omega⟩
    · intro nid hnid
      simp only [Option.some.injEq] at hnid
      subst hnid
      show s.next_id < s.next_id + 1
      omega
  · rw [enter_node_declined hmiss (by omega)]
    exact ⟨he, by intro nid hnid; simp at hnid⟩

mutual

theorem walk_edges_lt {m : Nat} {sv : Bool} : ∀ (v : JsonValue) (path : String)
    (par : Option Nat) (s : BuildState),
    (preorder_paths v path).Nodup →
    (∀ q ∈ preorder_paths v path, q ∉ storedKeys s) →
    (∀ q, par = some q → q < s.next_id) →
    (∀ e ∈ s.edges, e.from_ < e.to_ ∧ e.to_ < s.next_id) →
    ∀ e ∈ (walk m sv v path par s).edges,
      e.from_ < e.to_ ∧ e.to_ < (walk m sv v path par s).next_id
  | v, path, par, s => by
    intro hnd hdisj hpar he
    by_cases ht : s.truncated = true
    · rw [walk_truncated ht]
      exact he
    · cases v with
      | obj kvs =>
        rw [walk_obj, if_neg ht]
        rw [preorder_paths] at hnd hdisj
        have hmiss : lookupPath (if path = "" then "root" else path) s.path_to_id = none :=
          lookupPath_eq_none.mpr (hdisj _ (List.mem_cons_self _ _))
        have hstep := @enter_node_edges_lt m (if path = "" then "root" else path)
          ((if path = "" then "root" else last_segment path) ++ " {}") "object"
          par s hmiss hpar he
        obtain ⟨u, hu, hus⟩ := enter_node_keys_ext m (if path = "" then "root" else path)
          ((if path = "" then "root" else last_segment path) ++ " {}") "object" par s
        rcases h : enter_node m (if path = "" then "root" else path)
            ((if path = "" then "root" else last_segment path) ++ " {}") "object" par s
          with ⟨onid, s1⟩
        rw [h] at hstep hu
        cases onid with
        | none => exact hstep.1
        | some nid =>
          refine walkFields_edges_lt kvs path nid s1 hnd.of_cons ?_
            (hstep.2 nid rfl) hstep.1
          intro q hq
          rw [hu]
          simp only [List.mem_append, not_or]
          refine ⟨hdisj q (List.mem_cons_of_mem _ hq), ?_⟩
          intro hqu
          have : q ∈ [if path = "" then "root" else path] := hus.subset hqu
          simp only [List.mem_singleton] at this
          exact (List.nodup_cons.mp hnd).1 (this ▸ hq)
      | arr xs =>
        rw [walk_arr, if_neg ht]
        rw [preorder_paths] at hnd hdisj
        have hmiss : lookupPath (if path = "" then "root" else path) s.path_to_id = none :=
          lookupPath_eq_none.mpr (hdisj _ (List.mem_cons_self _ _))
        have hstep := @enter_node_edges_lt m (if path = "" then "root" else path)
          ((if path = "" then "root" else last_segment path) ++
            " [" ++ toString xs.length ++ "]") "array"
          par s hmiss hpar he
        obtain ⟨u, hu, hus⟩ := enter_node_keys_ext m (if path = "" then "root" else path)
          ((if path = "" then "root" else last_segment path) ++
            " [" ++ toString xs.length ++ "]") "array" par s
        rcases h : enter_node m (if path = "" then "root" else path)
            ((if path = "" then "root" else last_segment path) ++
              " [" ++ toString xs.length ++ "]") "array" par s
          with ⟨onid, s1⟩
        rw [h] at hstep hu
        cases onid with
        | none => exact hstep.1
        | some nid =>
          refine walkItems_edges_lt xs path 0 nid s1 hnd.of_cons ?_
            (hstep.2 nid rfl) hstep.1
          intro q hq
          rw [hu]
          simp only [List.mem_append, not_or]
          refine ⟨hdisj q (List.mem_cons_of_mem _ hq), ?_⟩
          intro hqu
          have : q ∈ [if path = "" then "root" else path] := hus.subset hqu
          simp only [List.mem_singleton] at this
          exact (List.nodup_cons.mp hnd).1 (this ▸ hq)
      | null =>
        rw [walk_null, if_neg ht, leaf_case]
        rw [preorder_paths] at hdisj
        have hmiss : lookupPath path s.path_to_id = none :=
          lookupPath_eq_none.mpr (hdisj _ (List.mem_cons_self _ _))
        exact (enter_node_edges_lt hmiss hpar he).1
      | bool b =>
        rw [walk_bool, if_neg ht, leaf_case]
        rw [preorder_paths] at hdisj
        have hmiss : lookupPath path s.path_to_id = none :=
          lookupPath_eq_none.mpr (hdisj _ (List.mem_cons_self _ _))
        exact (enter_node_edges_lt hmiss hpar he).1
      | num n =>
        rw [walk_num, if_neg ht, leaf_case]
        rw [preorder_paths] at hdisj
        have hmiss : lookupPath path s.path_to_id = none :=
          lookupPath_eq_none.mpr (hdisj _ (List.mem_cons_self _ _))
        exact (enter_node_edges_lt hmiss hpar he).1
      | str t =>
        rw [walk_str, if_neg ht, leaf_case]
        rw [preorder_paths] at hdisj
        have hmiss : lookupPath path s.path_to_id = none :=
          lookupPath_eq_none.mpr (hdisj _ (List.mem_cons_self _ _))
        exact (enter_node_edges_lt hmiss hpar he).1

theorem walkFields_edges_lt {m : Nat} {sv : Bool} :
    ∀ (kvs : List (String × JsonValue)) (path : String) (nid : Nat) (s : BuildState),
    (preorder_fields kvs path).Nodup →
    (∀ q ∈ preorder_fields kvs path, q ∉ storedKeys s) →
    nid < s.next_id →
    (∀ e ∈ s.edges, e.from_ < e.to_ ∧ e.to_ < s.next_id) →
    ∀ e ∈ (walkFields m sv kvs path nid s).edges,
      e.from_ < e.to_ ∧ e.to_ < (walkFields m sv kvs path nid s).next_id
  | [], path, nid, s => by
    intro hnd hdisj hnid he
    rw [walkFields_nil]
    exact he
  | (k, v) :: rest, path, nid, s => by
    intro hnd hdisj hnid he
    rw [walkFields_cons]
    rw [preorder_fields] at hnd hdisj
    obtain ⟨hnd1, hnd2, hdj⟩ := List.nodup_append.mp hnd
    obtain ⟨t, htt, hts⟩ := walk_keys_sublist m sv v (field_path path k)
      (some nid) s
    refine walkFields_edges_lt rest path nid _ hnd2 ?_
      (lt_of_lt_of_le hnid (walk_next_le v (field_path path k) (some nid) s))
      (walk_edges_lt v (field_path path k) (some nid) s hnd1
        (fun q hq => hdisj q (List.mem_append_left _ hq))
        (by intro q hq; cases hq; exact hnid) he)
    intro q hq
    rw [htt]
    simp only [List.mem_append, not_or]
    refine ⟨hdisj q (List.mem_append_right _ hq), ?_⟩
    intro hqt
    exact hdj (hts.subset hqt) hq

theorem walkItems_edges_lt {m : Nat} {sv : Bool} :
    ∀ (xs : List JsonValue) (path : String) (i nid : Nat) (s : BuildState),
    (preorder_items xs path i).Nodup →
    (∀ q ∈ preorder_items xs path i, q ∉ storedKeys s) →
    nid < s.next_id →
    (∀ e ∈ s.edges, e.from_ < e.to_ ∧ e.to_ < s.next_id) →
    ∀ e ∈ (walkItems m sv xs path i nid s).edges,
      e.from_ < e.to_ ∧ e.to_ < (walkItems m sv xs path i nid s).next_id
  | [], path, i, nid, s => by
    intro hnd hdisj hnid he
    rw [walkItems_nil]
    exact he
  | v :: rest, path, i, nid, s => by
    intro hnd hdisj hnid he
    rw [walkItems_cons]
    rw [preorder_items] at hnd hdisj
    obtain ⟨hnd1, hnd2, hdj⟩ := List.nodup_append.mp hnd
    obtain ⟨t, htt, hts⟩ := walk_keys_sublist m sv v (index_path path i)
      (some nid) s
    refine walkItems_edges_lt rest path (i + 1) nid _ hnd2 ?_
      (lt_of_lt_of_le hnid (walk_next_le v (index_path path i) (some nid) s))
      (walk_edges_lt v (index_path path i) (some nid) s hnd1
        (fun q hq => hdisj q (List.mem_append_left _ hq))
        (by intro q hq; cases hq; exact hnid) he)
    intro q hq
    rw [htt]
    simp only [List.mem_append, not_or]
    refine ⟨hdisj q (List.mem_append_right _ hq), ?_⟩
    intro hqt
    exact hdj (hts.subset hqt) hq

end

/-- C10 (amended): node ids are the consecutive integers 1, 2, … in
emission order (the node at list position i has id i+1), and both
endpoints of every returned edge are ids of emitted nodes.  The further
property `from < to` holds whenever the stored paths of the value are
pairwise distinct (no collision forces `add_node` to deduplicate); a
collision can produce an edge to an already-emitted node, even a
self-loop. -/
theorem build_network_edge_endpoints (v : JsonValue) (sv : Bool) (m : Nat) :
    ((build_network v sv m).1.map (fun nd => nd.id) =
        List.range' 1 (build_network v sv m).1.length ∧
      ∀ e ∈ (build_network v sv m).2.1,
        e.from_ ∈ (build_network v sv m).1.map (fun nd => nd.id) ∧
        e.to_ ∈ (build_network v sv m).1.map (fun nd => nd.id)) ∧
    ((preorder_paths v "").Nodup →
      ∀ e ∈ (build_network v sv m).2.1, e.from_ < e.to_) := by
  have hInv := build_state_inv v sv m
  refine ⟨⟨hInv.ids_eq, ?_⟩, ?_⟩
  · rw [build_network_fst, build_network_edges_eq, build_state]
    exact walk_edges_mem v "" none ⟨[], [], false, [], 1, 0⟩ (StateInv.init m)
      (by intro q hq; cases hq) (by intro e hme; cases hme)
  · intro hnd
    rw [build_network_edges_eq, build_state]
    intro e hme
    exact (walk_edges_lt v "" none ⟨[], [], false, [], 1, 0⟩ hnd
      (by intro q hq; simp [storedKeys]) (by intro q hq; cases hq)
      (by intro e' hme'; cases hme') e hme).1

/-- Witness for C10's conditional part at `{"a": 1}`, whose stored paths
`["root", "a"]` are distinct. -/
theorem build_network_edge_endpoints_witness :
    (preorder_paths (.obj [("a", .num 1)]) "").Nodup ∧
    ∀ e ∈ (build_network (.obj [("a", .num 1)]) true 100).2.1, e.from_ < e.to_ :=
  ⟨by decide, (build_network_edge_endpoints (.obj [("a", .num 1)]) true 100).2 (by decide)⟩

/-- C10 (counterexample): on `{"root": 1}` the leaf path `"root"`
collides with the sentinel stored for the root object, `add_node`
deduplicates, and the produced edge is the self-loop 1 → 1, violating
`from < to`. -/
theorem build_network_self_loop_edge :
    (build_network (.obj [("root", .num 1)]) true 100).2.1 = [⟨1, 1⟩] ∧
    ¬ ∀ e ∈ (build_network (.obj [("root", .num 1)]) true 100).2.1, e.from_ < e.to_ := by
  constructor
  · decide
  · decide

/-- C9: preview rendering.  For a string value the preview replaces every
embedded newline with a space and, when the result exceeds the configured
maximum length (80), keeps the first 79 characters and appends the
ellipsis character, so the output never exceeds 80 characters, never
contains a newline, and equals the newline-collapsed input when that fits;
an array previews as `"[" ++ length ++ "]"`, an object as `"{…}"`, and
numbers, booleans and null as their literal JSON tokens. -/
theorem value_preview_spec :
    (∀ s : String,
      '\n' ∉ (_value_preview (.str s)).data ∧
      (_value_preview (.str s)).length ≤ 80 ∧
      (s.length ≤ 80 →
        (_value_preview (.str s)).data =
          s.data.map (fun c => if c = '\n' then ' ' else c)) ∧
      (s.length > 80 →
        (_value_preview (.str s)).length = 80 ∧
        (_value_preview (.str s)).data =
          (s.data.map (fun c => if c = '\n' then ' ' else c)).take 79 ++ ['…'])) ∧
    (∀ xs : List JsonValue, _value_preview (.arr xs) = "[" ++ toString xs.length ++ "]") ∧
    (∀ kvs : List (String × JsonValue), _value_preview (.obj kvs) = "{…}") ∧
    (∀ n : Int, _value_preview (.num n) = toString n) ∧
    (∀ b : Bool, _value_preview (.bool b) = (if b then "true" else "false")) ∧
    _value_preview .null = "null" := by
  refine ⟨?_, fun xs => rfl, fun kvs => rfl, fun n => rfl, fun b => rfl, rfl⟩
  intro s
  have hmapped : ∀ c ∈ s.data.map (fun c => if c = '\n' then ' ' else c), c ≠ '\n' := by
    intro c hc
    obtain ⟨a, _, ha⟩ := List.mem_map.mp hc
    by_cases h : a = '\n'
    · rw [← ha]
      simp [h]
    · rw [← ha]
      simp [h]
  have hlen : (replaceNewlines s).length = s.length := by
    show (s.data.map (fun c => if c = '\n' then ' ' else c)).length = s.data.length
    simp
  have hpv : _value_preview (.str s) = _truncate (replaceNewlines s) := rfl
  by_cases hc : s.length > 80
  · have htr : _truncate (replaceNewlines s) =
        String.mk ((replaceNewlines s).data.take 79) ++ "…" := by
      rw [_truncate, if_pos (by rw [hlen]; exact hc)]
    have hdata : (_value_preview (.str s)).data =
        (s.data.map (fun c => if c = '\n' then ' ' else c)).take 79 ++ ['…'] := by
      rw [hpv, htr]
      rfl
    refine ⟨?_, ?_, ?_, ?_⟩
    · rw [hdata]
      intro hmem
      rcases List.mem_append.mp hmem with hmem | hmem
      · exact hmapped _ (List.mem_of_mem_take hmem) rfl
      · simp only [List.mem_singleton] at hmem
        cases hmem
    · show (_value_preview (.str s)).data.length ≤ 80
      rw [hdata]
      simp only [List.length_append, List.length_take, List.length_map,
        List.length_singleton]
      omega
    · intro h
      omega
    · intro _
      constructor
      · show (_value_preview (.str s)).data.length = 80
        rw [hdata]
        simp only [List.length_append, List.length_take, List.length_map,
          List.length_singleton]
        have : 80 < s.data.length := hc
        omega
      · exact hdata
  · have htr : _truncate (replaceNewlines s) = replaceNewlines s := by
      rw [_truncate, if_neg (by rw [hlen]; omega)]
    have hdata : (_value_preview (.str s)).data =
        s.data.map (fun c => if c = '\n' then ' ' else c) := by
      rw [hpv, htr]
      rfl
    refine ⟨?_, ?_, ?_, ?_⟩
    · rw [hdata]
      intro hmem
      exact hmapped _ hmem rfl
    · show (_value_preview (.str s)).data.length ≤ 80
      rw [hdata]
      simp only [List.length_map]
      have hb : s.length = s.data.length := rfl
      omega
    · intro _
      exact hdata
    · intro h
      have hb : s.length = s.data.length := rfl
      omega

/-- Witness for C9's two conditional branches: an 81-character string
overflows and is cut to 80 with a trailing ellipsis; a short string with
an embedded newline is only newline-collapsed. -/
theorem value_preview_spec_witness :
    ((String.mk (List.replicate 81 'a')).length > 80 ∧
      (_value_preview (.str (String.mk (List.replicate 81 'a')))).length = 80 ∧
      (_value_preview (.str (String.mk (List.replicate 81 'a')))).data =
        ((String.mk (List.replicate 81 'a')).data.map
          (fun c => if c = '\n' then ' ' else c)).take 79 ++ ['…']) ∧
    (("ab\ncd" : String).length ≤ 80 ∧
      (_value_preview (.str "ab\ncd")).data =
        ("ab\ncd" : String).data.map (fun c => if c = '\n' then ' ' else c)) :=
  ⟨⟨by decide,
    (value_preview_spec.1 (String.mk (List.replicate 81 'a'))).2.2.2 (by decide)⟩,
    ⟨by decide, (value_preview_spec.1 "ab\ncd").2.2.1 (by decide)⟩⟩

mutual

theorem buildIndexFrom_length : ∀ (v : JsonValue) (path : String),
    (buildIndexFrom v path).length = 1 + count_fields_elems v
  | .obj kvs, path => by
    rw [buildIndexFrom, count_fields_elems]
    simp only [List.length_cons]
    rw [indexFields_length kvs path]
    omega
  | .arr xs, path => by
    rw [buildIndexFrom, count_fields_elems]
    simp only [List.length_cons]
    rw [indexItems_length xs path 0]
    omega
  | .null, path => by rw [buildIndexFrom, count_fields_elems]; rfl
  | .bool b, path => by rw [buildIndexFrom, count_fields_elems]; rfl
  | .num n, path => by rw [buildIndexFrom, count_fields_elems]; rfl
  | .str t, path => by rw [buildIndexFrom, count_fields_elems]; rfl

theorem indexFields_length : ∀ (kvs : List (String × JsonValue)) (path : String),
    (indexFields kvs path).length = kvs.length + cfe_fields kvs
  | [], path => by rw [indexFields, cfe_fields]; rfl
  | (k, v) :: rest, path => by
    rw [indexFields, cfe_fields]
    simp only [List.length_append, List.length_cons]
    rw [buildIndexFrom_length v (field_path path k), indexFields_length rest path]
    omega

theorem indexItems_length : ∀ (xs : List JsonValue) (path : String) (i : Nat),
    (indexItems xs path i).length = xs.length + cfe_items xs
  | [], path, i => by rw [indexItems, cfe_items]; rfl
  | v :: rest, path, i => by
    rw [indexItems, cfe_items]
    simp only [List.length_append, List.length_cons]
    rw [buildIndexFrom_length v (index_path path i), indexItems_length rest path (i + 1)]
    omega

end

/-- C6: `buildIndex` (modelled from the spec, §4.3) performs a full
unbounded traversal — no node cap, no depth cap appear anywhere in its
definition — and produces exactly one entry per visited location, so the
entry count equals 1 (for the root) plus the total number of object
fields plus the total number of array elements, summed recursively. -/
theorem buildIndex_entry_count (v : JsonValue) :
    (buildIndex v).length = 1 + count_fields_elems v := by
  rw [buildIndex]
  exact buildIndexFrom_length v ""

/-! ## Decimal rendering of array indices -/

theorem digitsOf_eq (n : Nat) : digitsOf n =
    if n / 10 = 0 then [Nat.digitChar (n % 10)]
    else digitsOf (n / 10) ++ [Nat.digitChar (n % 10)] := by
  rw [digitsOf]

theorem toDigitsCore_eq_digitsOf : ∀ (fuel n : Nat) (ds : List Char), n < fuel →
    Nat.toDigitsCore 10 fuel n ds = digitsOf n ++ ds := by
  intro fuel
  induction fuel with
  | zero => intro n ds h; omega
  | succ fuel ih =>
    intro n ds h
    rw [Nat.toDigitsCore]
    by_cases h0 : n / 10 = 0
    · simp only [h0, ite_true]
      rw [digitsOf_eq, if_pos h0]
      rfl
    · simp only [h0, ite_false]
      rw [ih (n / 10) _ (by omega)]
      conv_rhs => rw [digitsOf_eq]
      rw [if_neg h0, List.append_assoc]
      rfl

theorem toString_nat_data (n : Nat) : (toString n).data = digitsOf n := by
  show (Nat.repr n).data = digitsOf n
  rw [Nat.repr, Nat.toDigits, toDigitsCore_eq_digitsOf (n + 1) n [] (by omega)]
  simp [List.asString]

theorem digitChar_isDigit {m : Nat} (h : m < 10) : (Nat.digitChar m).isDigit = true := by
  interval_cases m <;> decide

theorem digitChar_toNat_sub {m : Nat} (h : m < 10) : (Nat.digitChar m).toNat - 48 = m := by
  interval_cases m <;> decide

theorem digitsOf_isDigit : ∀ (n : Nat), ∀ c ∈ digitsOf n, c.isDigit = true := by
  intro n
  induction n using Nat.strong_induction_on with
  | _ n ih =>
    intro c hc
    rw [digitsOf_eq] at hc
    by_cases h0 : n / 10 = 0
    · rw [if_pos h0] at hc
      simp only [List.mem_singleton] at hc
      subst hc
      exact digitChar_isDigit (Nat.mod_lt _ (by omega))
    · rw [if_neg h0] at hc
      rcases List.mem_append.mp hc with hc | hc
      · exact ih (n / 10) (by omega) c hc
      · simp only [List.mem_singleton] at hc
        subst hc
        exact digitChar_isDigit (Nat.mod_lt _ (by omega))

theorem parse_digitsOf : ∀ (n : Nat) (a : Nat),
    List.foldl (fun acc c => 10 * acc + (c.toNat - 48)) a (digitsOf n) =
      a * 10 ^ (digitsOf n).length + n := by
  intro n
  induction n using Nat.strong_induction_on with
  | _ n ih =>
    intro a
    rw [digitsOf_eq]
    by_cases h0 : n / 10 = 0
    · rw [if_pos h0]
      simp only [List.foldl_cons, List.foldl_nil, List.length_singleton]
      rw [digitChar_toNat_sub (Nat.mod_lt _ (by omega))]
      have hn : n % 10 = n := Nat.mod_eq_of_lt (by omega)
      rw [hn]
      ring
    · rw [if_neg h0]
      rw [List.foldl_append]
      rw [ih (n / 10) (by omega) a]
      simp only [List.foldl_cons, List.foldl_nil, List.length_append,
        List.length_singleton]
      rw [digitChar_toNat_sub (Nat.mod_lt _ (by omega))]
      have hdm : 10 * (n / 10) + n % 10 = n := Nat.div_add_mod n 10
      have hpow : 10 ^ ((digitsOf (n / 10)).length + 1) =
          10 ^ (digitsOf (n / 10)).length * 10 := pow_succ 10 _
      rw [hpow]
      ring_nf
      omega

theorem digitsOf_inj {n1 n2 : Nat} (h : digitsOf n1 = digitsOf n2) : n1 = n2 := by
  have p1 := parse_digitsOf n1 0
  have p2 := parse_digitsOf n2 0
  rw [h] at p1
  rw [p2] at p1
  simpa using p1.symm

theorem toString_nat_inj {n1 n2 : Nat} (h : toString n1 = toString n2) : n1 = n2 := by
  apply digitsOf_inj
  rw [← toString_nat_data, ← toString_nat_data, h]

/-! ## Unique decomposition of path strings -/

theorem append_decomp {P : Char → Prop} : ∀ (a1 a2 b1 b2 : List Char),
    (∀ c ∈ a1, P c) → (∀ c ∈ a2, P c) →
    (b1 = [] ∨ ∃ c r, b1 = c :: r ∧ ¬ P c) →
    (b2 = [] ∨ ∃ c r, b2 = c :: r ∧ ¬ P c) →
    a1 ++ b1 = a2 ++ b2 → a1 = a2 ∧ b1 = b2 := by
  intro a1
  induction a1 with
  | nil =>
    intro a2 b1 b2 ha1 ha2 hb1 hb2 heq
    cases a2 with
    | nil => exact ⟨rfl, by simpa using heq⟩
    | cons c as =>
      exfalso
      rcases hb1 with rfl | ⟨c0, r, rfl, hc0⟩
      · simp at heq
      · simp only [List.nil_append, List.cons_append] at heq
        injection heq with hc _
        exact hc0 (hc ▸ ha2 c (List.mem_cons_self _ _))
  | cons c as ih =>
    intro a2 b1 b2 ha1 ha2 hb1 hb2 heq
    cases a2 with
    | nil =>
      exfalso
      rcases hb2 with rfl | ⟨c0, r, rfl, hc0⟩
      · simp at heq
      · simp only [List.nil_append, List.cons_append] at heq
        injection heq with hc _
        exact hc0 (hc ▸ ha1 c (List.mem_cons_self _ _))
    | cons c' as' =>
      simp only [List.cons_append] at heq
      injection heq with h1 h2
      subst h1
      obtain ⟨he1, he2⟩ := ih as' b1 b2 (fun x hx => ha1 x (List.mem_cons_of_mem _ hx))
        (fun x hx => ha2 x (List.mem_cons_of_mem _ hx)) hb1 hb2 h2
      exact ⟨by rw [he1], he2⟩

theorem stepChars_ne_nil {first : Bool} {st : Step} (h : okStepP st) :
    stepChars first st ≠ [] := by
  cases st with
  | field k =>
    cases first with
    | false => simp [stepChars]
    | true =>
      simp only [stepChars, ite_true, List.nil_append]
      exact h.1
  | index i => simp [stepChars]

theorem pathChars_head (l : List Step) :
    pathChars false l = [] ∨
      ∃ c r, pathChars false l = c :: r ∧ (c = '.' ∨ c = '[') := by
  cases l with
  | nil => left; rfl
  | cons st rest =>
    right
    cases st with
    | field k =>
      exact ⟨'.', k.data ++ pathChars false rest, by simp [pathChars, stepChars], Or.inl rfl⟩
    | index i =>
      exact ⟨'[', ((toString i).data ++ [']']) ++ pathChars false rest,
        by simp [pathChars, stepChars], Or.inr rfl⟩

theorem pathChars_inj : ∀ (l1 l2 : List Step) (first : Bool),
    (∀ st ∈ l1, okStepP st) → (∀ st ∈ l2, okStepP st) →
    pathChars first l1 = pathChars first l2 → l1 = l2 := by
  intro l1
  induction l1 with
  | nil =>
    intro l2 first h1 h2 heq
    cases l2 with
    | nil => rfl
    | cons st rest =>
      exfalso
      rw [pathChars, pathChars] at heq
      obtain ⟨hs, -⟩ := List.append_eq_nil.mp heq.symm
      exact stepChars_ne_nil (h2 st (List.mem_cons_self _ _)) hs
  | cons st1 r1 ih =>
    intro l2 first h1 h2 heq
    cases l2 with
    | nil =>
      exfalso
      rw [pathChars, pathChars] at heq
      obtain ⟨hs, -⟩ := List.append_eq_nil.mp heq
      exact stepChars_ne_nil (h1 st1 (List.mem_cons_self _ _)) hs
    | cons st2 r2 =>
      rw [pathChars, pathChars] at heq
      have hok1 := h1 st1 (List.mem_cons_self _ _)
      have hok2 := h2 st2 (List.mem_cons_self _ _)
      have htail1 : ∀ st ∈ r1, okStepP st := fun st hst => h1 st (List.mem_cons_of_mem _ hst)
      have htail2 : ∀ st ∈ r2, okStepP st := fun st hst => h2 st (List.mem_cons_of_mem _ hst)
      cases st1 with
      | field k1 =>
        cases st2 with
        | field k2 =>
          rw [stepChars, stepChars, List.append_assoc, List.append_assoc] at heq
          have heq' : k1.data ++ pathChars false r1 = k2.data ++ pathChars false r2 :=
            List.append_cancel_left heq
          obtain ⟨hk, hr⟩ := append_decomp (P := fun c => c ≠ '.' ∧ c ≠ '[')
            k1.data k2.data _ _ hok1.2 hok2.2
            (by
              rcases pathChars_head r1 with h | ⟨c, r, he, hc⟩
              · exact Or.inl h
              · refine Or.inr ⟨c, r, he, ?_⟩
                rcases hc with rfl | rfl
                · intro hP; exact hP.1 rfl
                · intro hP; exact hP.2 rfl)
            (by
              rcases pathChars_head r2 with h | ⟨c, r, he, hc⟩
              · exact Or.inl h
              · refine Or.inr ⟨c, r, he, ?_⟩
                rcases hc with rfl | rfl
                · intro hP; exact hP.1 rfl
                · intro hP; exact hP.2 rfl)
            heq'
          rw [String.ext hk, ih r2 false htail1 htail2 hr]
        | index i2 =>
          exfalso
          rw [stepChars, stepChars] at heq
          cases first with
          | true =>
            simp only [ite_true, List.nil_append, List.cons_append] at heq
            cases hk : k1.data with
            | nil => exact hok1.1 hk
            | cons c cs =>
              rw [hk] at heq
              simp only [List.cons_append] at heq
              injection heq with hc _
              have := hok1.2 c (by rw [hk]; exact List.mem_cons_self _ _)
              exact this.2 hc
          | false =>
            simp only [ite_false, List.cons_append, List.append_assoc] at heq
            injection heq with hc _
            exact absurd hc (by decide)
      | index i1 =>
        cases st2 with
        | field k2 =>
          exfalso
          rw [stepChars, stepChars] at heq
          cases first with
          | true =>
            simp only [ite_true, List.nil_append, List.cons_append] at heq
            cases hk : k2.data with
            | nil => exact hok2.1 hk
            | cons c cs =>
              rw [hk] at heq
              simp only [List.cons_append] at heq
              injection heq with hc _
              have := hok2.2 c (by rw [hk]; exact List.mem_cons_self _ _)
              exact this.2 hc.symm
          | false =>
            simp only [ite_false, List.cons_append, List.append_assoc] at heq
            injection heq with hc _
            exact absurd hc (by decide)
        | index i2 =>
          rw [stepChars, stepChars] at heq
          simp only [List.cons_append] at heq
          injection heq with _ heq'
          rw [List.append_assoc, List.append_assoc, List.singleton_append,
            List.singleton_append] at heq'
          obtain ⟨hd, hr⟩ := append_decomp (P := fun c => c.isDigit = true)
            (toString i1).data (toString i2).data _ _
            (by
              intro c hc
              rw [toString_nat_data] at hc
              exact digitsOf_isDigit i1 c hc)
            (by
              intro c hc
              rw [toString_nat_data] at hc
              exact digitsOf_isDigit i2 c hc)
            (Or.inr ⟨']', pathChars false r1, rfl, by decide⟩)
            (Or.inr ⟨']', pathChars false r2, rfl, by decide⟩)
            heq'
          injection hr with hcn hr
          rw [toString_nat_inj (String.ext hd), ih r2 false htail1 htail2 hr]

theorem string_data_append (a b : String) : (a ++ b).data = a.data ++ b.data := by
  cases a
  cases b
  rfl

theorem joinPath_data_root (st : Step) : (joinPath "" st).data = stepChars true st := by
  cases st with
  | field k =>
    show (field_path "" k).data = stepChars true (.field k)
    rw [field_path, if_pos rfl, stepChars]
    simp
  | index i =>
    show (index_path "" i).data = stepChars true (.index i)
    rw [index_path, if_pos rfl, stepChars]
    rw [string_data_append, string_data_append]
    rfl

theorem joinPath_data (parent : String) (hp : parent ≠ "") (st : Step) :
    (joinPath parent st).data = parent.data ++ stepChars false st := by
  cases st with
  | field k =>
    show (field_path parent k).data = parent.data ++ stepChars false (.field k)
    rw [field_path, if_neg hp, stepChars]
    rw [string_data_append, string_data_append]
    simp
  | index i =>
    show (index_path parent i).data = parent.data ++ stepChars false (.index i)
    rw [index_path, if_neg hp, stepChars]
    rw [string_data_append, string_data_append, string_data_append]
    simp

theorem joinPath_ne (parent : String) (st : Step) (h : okStepP st) :
    joinPath parent st ≠ "" := by
  intro hcon
  have hdata : (joinPath parent st).data = [] := by rw [hcon]
  by_cases hp : parent = ""
  · subst hp
    rw [joinPath_data_root] at hdata
    exact stepChars_ne_nil h hdata
  · rw [joinPath_data parent hp] at hdata
    obtain ⟨-, hs⟩ := List.append_eq_nil.mp hdata
    exact stepChars_ne_nil h hs

theorem foldl_joinPath_data : ∀ (l : List Step) (parent : String), parent ≠ "" →
    (∀ st ∈ l, okStepP st) →
    (List.foldl joinPath parent l).data = parent.data ++ pathChars false l := by
  intro l
  induction l with
  | nil =>
    intro parent hp h
    rw [List.foldl_nil, pathChars]
    simp
  | cons st rest ih =>
    intro parent hp h
    rw [List.foldl_cons,
      ih (joinPath parent st) (joinPath_ne parent st (h st (List.mem_cons_self _ _)))
        (fun x hx => h x (List.mem_cons_of_mem _ hx)),
      joinPath_data parent hp st, pathChars, List.append_assoc]

theorem pathOfSteps_data (l : List Step) (h : ∀ st ∈ l, okStepP st) :
    (pathOfSteps l).data = pathChars true l := by
  cases l with
  | nil => rfl
  | cons st rest =>
    rw [pathOfSteps, List.foldl_cons,
      foldl_joinPath_data rest (joinPath "" st)
        (joinPath_ne "" st (h st (List.mem_cons_self _ _)))
        (fun x hx => h x (List.mem_cons_of_mem _ hx)),
      joinPath_data_root st, pathChars]

theorem okKeyB_ok {k : String} (h : okKeyB k = true) :
    k.data ≠ [] ∧ ∀ c ∈ k.data, c ≠ '.' ∧ c ≠ '[' := by
  rw [okKeyB, Bool.and_eq_true] at h
  obtain ⟨h1, h2⟩ := h
  constructor
  · intro hcon
    rw [hcon] at h1
    simp at h1
  · intro c hc
    have := List.all_eq_true.mp h2 c hc
    rw [Bool.and_eq_true] at this
    exact ⟨by simpa using this.1, by simpa using this.2⟩

mutual

theorem locs_ok : ∀ (v : JsonValue), okKeysB v = true →
    ∀ l ∈ locs v, ∀ st ∈ l, okStepP st
  | .obj kvs => by
    intro hok l hl st hst
    rw [locs] at hl
    rcases List.mem_cons.mp hl with rfl | hl
    · cases hst
    · exact locsFields_ok kvs (by rwa [okKeysB] at hok) l hl st hst
  | .arr xs => by
    intro hok l hl st hst
    rw [locs] at hl
    rcases List.mem_cons.mp hl with rfl | hl
    · cases hst
    · exact locsItems_ok xs 0 (by rwa [okKeysB] at hok) l hl st hst
  | .null => by
    intro hok l hl st hst
    rw [locs] at hl
    simp only [List.mem_singleton] at hl
    subst hl
    cases hst
  | .bool b => by
    intro hok l hl st hst
    rw [locs] at hl
    simp only [List.mem_singleton] at hl
    subst hl
    cases hst
  | .num n => by
    intro hok l hl st hst
    rw [locs] at hl
    simp only [List.mem_singleton] at hl
    subst hl
    cases hst
  | .str t => by
    intro hok l hl st hst
    rw [locs] at hl
    simp only [List.mem_singleton] at hl
    subst hl
    cases hst

theorem locsFields_ok : ∀ (kvs : List (String × JsonValue)), okKeysFieldsB kvs = true →
    ∀ l ∈ locsFields kvs, ∀ st ∈ l, okStepP st
  | [] => by
    intro hok l hl
    rw [locsFields] at hl
    cases hl
  | (k, v) :: rest => by
    intro hok l hl st hst
    rw [okKeysFieldsB, Bool.and_eq_true, Bool.and_eq_true] at hok
    obtain ⟨⟨hk, hv⟩, hrest⟩ := hok
    rw [locsFields] at hl
    rcases List.mem_append.mp hl with hl | hl
    · obtain ⟨l', hl', rfl⟩ := List.mem_map.mp hl
      rcases List.mem_cons.mp hst with rfl | hst
      · exact okKeyB_ok hk
      · exact locs_ok v hv l' hl' st hst
    · exact locsFields_ok rest hrest l hl st hst

theorem locsItems_ok : ∀ (xs : List JsonValue) (i : Nat), okKeysItemsB xs = true →
    ∀ l ∈ locsItems xs i, ∀ st ∈ l, okStepP st
  | [], i => by
    intro hok l hl
    rw [locsItems] at hl
    cases hl
  | v :: rest, i => by
    intro hok l hl st hst
    rw [okKeysItemsB, Bool.and_eq_true] at hok
    obtain ⟨hv, hrest⟩ := hok
    rw [locsItems] at hl
    rcases List.mem_append.mp hl with hl | hl
    · obtain ⟨l', hl', rfl⟩ := List.mem_map.mp hl
      rcases List.mem_cons.mp hst with rfl | hst
      · trivial
      · exact locs_ok v hv l' hl' st hst
    · exact locsItems_ok rest (i + 1) hrest l hl st hst

end

/-- C8 (amended): the path-construction rules (object field appends
`.key`, array index appends `[i]`, the root is the empty string) assign
distinct path strings to distinct locations of the same tree **provided
every object key is nonempty and contains neither `'.'` nor `'['`**; a
key breaking that convention can collide with a structural separator. -/
theorem path_injective_safe_keys (v : JsonValue) (hok : okKeysB v = true) :
    ∀ l1 ∈ locs v, ∀ l2 ∈ locs v, pathOfSteps l1 = pathOfSteps l2 → l1 = l2 := by
  intro l1 h1 l2 h2 heq
  have ok1 := locs_ok v hok l1 h1
  have ok2 := locs_ok v hok l2 h2
  apply pathChars_inj l1 l2 true ok1 ok2
  rw [← pathOfSteps_data l1 ok1, ← pathOfSteps_data l2 ok2, heq]

/-- Witness for C8 (amended) on `{"a": [1]}`, whose keys are safe. -/
theorem path_injective_safe_keys_witness :
    okKeysB (.obj [("a", .arr [.num 1])]) = true ∧
    (∀ l1 ∈ locs (.obj [("a", .arr [.num 1])]),
      ∀ l2 ∈ locs (.obj [("a", .arr [.num 1])]),
      pathOfSteps l1 = pathOfSteps l2 → l1 = l2) :=
  ⟨by decide, path_injective_safe_keys _ (by decide)⟩

/-- C8 (counterexample): in `{"a.b": 1, "a": {"b": 2}}` the two distinct
locations `["a.b"]` (top-level field whose key contains a dot) and
`["a", "b"]` (field `b` of object `a`) both have path string `"a.b"`:
the path rules are not injective on arbitrary trees. -/
theorem path_collision :
    [Step.field "a.b"] ∈ locs (.obj [("a.b", .num 1), ("a", .obj [("b", .num 2)])]) ∧
    [Step.field "a", Step.field "b"] ∈
      locs (.obj [("a.b", .num 1), ("a", .obj [("b", .num 2)])]) ∧
    pathOfSteps [Step.field "a.b"] = pathOfSteps [Step.field "a", Step.field "b"] ∧
    [Step.field "a.b"] ≠ [Step.field "a", Step.field "b"] :=
  ⟨by decide, by decide, by decide, by decide⟩
